import Mathlib

/-!
Verification of the deterministic translation core of the
GSoC-Cohort-Discovery-Chatbot repository: the FilterState/GraphQL-filter
codec (`src/backend/utils/filter_utils.py`), the rule-based conflict
resolver (`src/backend/llm/disambiguator.py`), the filter composer and
query builder (`src/backend/graphql/composer.py`, `builder.py`), and the
catalog search index (`src/backend/catalog/index.py`).

Python dicts are embedded as insertion-ordered association lists with the
Python assignment/merge semantics (`dictInsert`, `dictMerge`), JSON-style
runtime values as the inductive `Val`, and float scores as exact rationals
(the claims under check are about the structure of the arithmetic, not
binary rounding).
-/

attribute [local semireducible] Rat.add Rat.mul Rat.inv Rat.sub Rat.ofScientific

/-- JSON-style runtime value, the universe of filter values handled by the
Python code (strings, ints, bools, lists). -/
inductive Val where
  | str (s : String)
  | int (n : Int)
  | float (q : ℚ)
  | bool (b : Bool)
  | list (vs : List Val)

mutual

/-- Structural equality test for `Val` (deriving cannot handle the nested
`List Val`). -/
def Val.beq : Val → Val → Bool
  | .str a, .str b => a == b
  | .int a, .int b => a == b
  | .float a, .float b => a == b
  | .bool a, .bool b => a == b
  | .list a, .list b => Val.beqList a b
  | _, _ => false

/-- Elementwise `Val.beq` on lists. -/
def Val.beqList : List Val → List Val → Bool
  | [], [] => true
  | a :: as, b :: bs => Val.beq a b && Val.beqList as bs
  | _, _ => false

end

mutual

theorem Val.beq_iff : ∀ a b : Val, Val.beq a b = true ↔ a = b
  | .str a, .str b => by simp [Val.beq]
  | .str _, .int _ | .str _, .bool _ | .str _, .list _ | .str _, .float _ => by
      simp [Val.beq]
  | .int a, .int b => by simp [Val.beq]
  | .int _, .str _ | .int _, .bool _ | .int _, .list _ | .int _, .float _ => by
      simp [Val.beq]
  | .float a, .float b => by simp [Val.beq]
  | .float _, .str _ | .float _, .int _ | .float _, .bool _ | .float _, .list _ => by
      simp [Val.beq]
  | .bool a, .bool b => by simp [Val.beq]
  | .bool _, .str _ | .bool _, .int _ | .bool _, .list _ | .bool _, .float _ => by
      simp [Val.beq]
  | .list a, .list b => by simp [Val.beq, Val.beqList_iff a b]
  | .list _, .str _ | .list _, .int _ | .list _, .bool _ | .list _, .float _ => by
      simp [Val.beq]

theorem Val.beqList_iff : ∀ a b : List Val, Val.beqList a b = true ↔ a = b
  | [], [] => by simp [Val.beqList]
  | [], _ :: _ => by simp [Val.beqList]
  | _ :: _, [] => by simp [Val.beqList]
  | a :: as, b :: bs => by
      simp [Val.beqList, Val.beq_iff a b, Val.beqList_iff as bs]

end

instance : DecidableEq Val := fun a b => decidable_of_iff (Val.beq a b = true) (Val.beq_iff a b)

/-- Python truthiness for `Val` (`if value:`). -/
def Val.truthy : Val → Bool
  | .str s => s != ""
  | .int n => n != 0
  | .float q => q != 0
  | .bool b => b
  | .list vs => !vs.isEmpty

namespace FILTER_TYPE

/-- Constant from `class FILTER_TYPE` in filter_utils.py. -/
def COMPOSED : String := "COMPOSED"

/-- Constant from `class FILTER_TYPE` in filter_utils.py. -/
def ANCHORED : String := "ANCHORED"

/-- Constant from `class FILTER_TYPE` in filter_utils.py. -/
def STANDARD : String := "STANDARD"

/-- Constant from `class FILTER_TYPE` in filter_utils.py. -/
def OPTION : String := "OPTION"

/-- Constant from `class FILTER_TYPE` in filter_utils.py. -/
def RANGE : String := "RANGE"

end FILTER_TYPE

/-- A FilterValue dict as handled by filter_utils.py: the `__type` tag plus
the keys the code reads with `.get` (`selectedValues` defaulting to `[]`,
`isExclusion`, `lowerBound`/`upperBound` defaulting to `None`). A Python
dict missing a key is embedded as the field holding the getter's default. -/
structure FilterValue where
  type : String
  selectedValues : Val
  isExclusion : Bool
  lowerBound : Option Val
  upperBound : Option Val
deriving DecidableEq

/-- An Option-type FilterValue dict `{'__type': OPTION, 'selectedValues': sel,
'isExclusion': excl}`. -/
def optionFV (sel : Val) (excl : Bool) : FilterValue :=
  { type := FILTER_TYPE.OPTION, selectedValues := sel, isExclusion := excl,
    lowerBound := none, upperBound := none }

/-- A Range-type FilterValue dict `{'__type': RANGE, 'lowerBound': lb,
'upperBound': ub}` (no `selectedValues` key, so the getter default `[]`). -/
def rangeFV (lb ub : Option Val) : FilterValue :=
  { type := FILTER_TYPE.RANGE, selectedValues := Val.list [], isExclusion := false,
    lowerBound := lb, upperBound := ub }

/-- The wire-grammar GraphQL filter objects that filter_utils.py and
builder.py construct and consume.  Each constructor is a single-key dict
(`{op: [...]}`, `{'IN': {field: values}}`, `{'GTE': {field: value}}`,
`{'nested': {'path': p, op: [...]}}`, ...), matching the decoder's
"first key" access on the objects this system produces. -/
inductive GqlF where
  | comb (op : String) (children : List GqlF)
  | inF (entries : List (String × Val))
  | gteF (field : String) (v : Val)
  | lteF (field : String) (v : Val)
  | gtF (field : String) (v : Val)
  | ltF (field : String) (v : Val)
  | containsF (field : String) (v : Val)
  | nested (path : String) (op : String) (children : List GqlF)

mutual

/-- Structural equality test for `GqlF` (deriving cannot handle the nested
`List GqlF`). -/
def GqlF.beq : GqlF → GqlF → Bool
  | .comb o1 c1, .comb o2 c2 => o1 == o2 && GqlF.beqList c1 c2
  | .inF e1, .inF e2 => e1 == e2
  | .gteF f1 v1, .gteF f2 v2 => f1 == f2 && v1 == v2
  | .lteF f1 v1, .lteF f2 v2 => f1 == f2 && v1 == v2
  | .gtF f1 v1, .gtF f2 v2 => f1 == f2 && v1 == v2
  | .ltF f1 v1, .ltF f2 v2 => f1 == f2 && v1 == v2
  | .containsF f1 v1, .containsF f2 v2 => f1 == f2 && v1 == v2
  | .nested p1 o1 c1, .nested p2 o2 c2 => p1 == p2 && (o1 == o2 && GqlF.beqList c1 c2)
  | _, _ => false

/-- Elementwise `GqlF.beq` on lists. -/
def GqlF.beqList : List GqlF → List GqlF → Bool
  | [], [] => true
  | a :: as, b :: bs => GqlF.beq a b && GqlF.beqList as bs
  | _, _ => false

end

mutual

theorem GqlF.beq_eq_true_iff : ∀ a b : GqlF, GqlF.beq a b = true ↔ a = b
  | .comb o1 c1, .comb o2 c2 => by simp [GqlF.beq, GqlF.beqList_eq_true_iff c1 c2]
  | .inF e1, .inF e2 => by simp [GqlF.beq]
  | .gteF f1 v1, .gteF f2 v2 => by simp [GqlF.beq]
  | .lteF f1 v1, .lteF f2 v2 => by simp [GqlF.beq]
  | .gtF f1 v1, .gtF f2 v2 => by simp [GqlF.beq]
  | .ltF f1 v1, .ltF f2 v2 => by simp [GqlF.beq]
  | .containsF f1 v1, .containsF f2 v2 => by simp [GqlF.beq]
  | .nested p1 o1 c1, .nested p2 o2 c2 => by
      simp [GqlF.beq, GqlF.beqList_eq_true_iff c1 c2]
  | .comb _ _, .inF _ | .comb _ _, .gteF _ _ | .comb _ _, .lteF _ _ | .comb _ _, .gtF _ _
  | .comb _ _, .ltF _ _ | .comb _ _, .containsF _ _ | .comb _ _, .nested _ _ _
  | .inF _, .comb _ _ | .inF _, .gteF _ _ | .inF _, .lteF _ _ | .inF _, .gtF _ _
  | .inF _, .ltF _ _ | .inF _, .containsF _ _ | .inF _, .nested _ _ _
  | .gteF _ _, .comb _ _ | .gteF _ _, .inF _ | .gteF _ _, .lteF _ _ | .gteF _ _, .gtF _ _
  | .gteF _ _, .ltF _ _ | .gteF _ _, .containsF _ _ | .gteF _ _, .nested _ _ _
  | .lteF _ _, .comb _ _ | .lteF _ _, .inF _ | .lteF _ _, .gteF _ _ | .lteF _ _, .gtF _ _
  | .lteF _ _, .ltF _ _ | .lteF _ _, .containsF _ _ | .lteF _ _, .nested _ _ _
  | .gtF _ _, .comb _ _ | .gtF _ _, .inF _ | .gtF _ _, .gteF _ _ | .gtF _ _, .lteF _ _
  | .gtF _ _, .ltF _ _ | .gtF _ _, .containsF _ _ | .gtF _ _, .nested _ _ _
  | .ltF _ _, .comb _ _ | .ltF _ _, .inF _ | .ltF _ _, .gteF _ _ | .ltF _ _, .lteF _ _
  | .ltF _ _, .gtF _ _ | .ltF _ _, .containsF _ _ | .ltF _ _, .nested _ _ _
  | .containsF _ _, .comb _ _ | .containsF _ _, .inF _ | .containsF _ _, .gteF _ _
  | .containsF _ _, .lteF _ _ | .containsF _ _, .gtF _ _ | .containsF _ _, .ltF _ _
  | .containsF _ _, .nested _ _ _
  | .nested _ _ _, .comb _ _ | .nested _ _ _, .inF _ | .nested _ _ _, .gteF _ _
  | .nested _ _ _, .lteF _ _ | .nested _ _ _, .gtF _ _ | .nested _ _ _, .ltF _ _
  | .nested _ _ _, .containsF _ _ => by simp [GqlF.beq]

theorem GqlF.beqList_eq_true_iff : ∀ a b : List GqlF, GqlF.beqList a b = true ↔ a = b
  | [], [] => by simp [GqlF.beqList]
  | [], _ :: _ => by simp [GqlF.beqList]
  | _ :: _, [] => by simp [GqlF.beqList]
  | a :: as, b :: bs => by
      simp [GqlF.beqList, GqlF.beq_eq_true_iff a b, GqlF.beqList_eq_true_iff as bs]

end

instance : DecidableEq GqlF := fun a b => decidable_of_iff (GqlF.beq a b = true) (GqlF.beq_eq_true_iff a b)

/-- The first (and only) key of the filter object, as read by
`list(gql_filter.keys())[0]` in `getFilterState`. -/
def GqlF.outerKey : GqlF → String
  | .comb op _ => op
  | .inF _ => "IN"
  | .gteF _ _ => "GTE"
  | .lteF _ _ => "LTE"
  | .gtF _ _ => "GT"
  | .ltF _ _ => "LT"
  | .containsF _ _ => "CONTAINS"
  | .nested _ _ _ => "nested"

/-- Python dict assignment `d[k] = v`: replace in place if the key exists,
else append. -/
def dictInsert (d : List (String × FilterValue)) (k : String) (v : FilterValue) :
    List (String × FilterValue) :=
  if d.any (fun kv => kv.1 == k) then d.map (fun kv => if kv.1 == k then (k, v) else kv)
  else d ++ [(k, v)]

/-- Python dict lookup `d.get(k)`. -/
def dictLookup (d : List (String × FilterValue)) (k : String) : Option FilterValue :=
  (d.find? (fun kv => kv.1 == k)).map (·.2)

/-- Python `{**a, **b}`: start from `a` and assign every entry of `b` in
order (existing keys keep their position, values from `b` win). -/
def dictMerge (a b : List (String × FilterValue)) : List (String × FilterValue) :=
  b.foldl (fun d kv => dictInsert d kv.1 kv.2) a

/-- Python `defaultdict(list)` append `d[k].append(x)`: extend the list at
`k` in place, creating the key at the end on first use. -/
def dictAppend {α : Type} (d : List (String × List α)) (k : String) (x : α) :
    List (String × List α) :=
  match d with
  | [] => [(k, [x])]
  | (p, xs) :: rest => if p = k then (p, xs ++ [x]) :: rest else (p, xs) :: dictAppend rest k x

/-- Embeds `SchemaTypeHandler.parse_filter_value`.  The trailing
"smart handling" branches of the Python require a `value` key, which
Option/Range/Anchored FilterValue dicts never carry, so they return `None`
on this domain. -/
def parse_filter_value (field_name : String) (fv : FilterValue) : Option GqlF :=
  if fv.type = FILTER_TYPE.OPTION then
    if fv.selectedValues.truthy then some (.inF [(field_name, fv.selectedValues)]) else none
  else if fv.type = FILTER_TYPE.RANGE then
    match fv.lowerBound, fv.upperBound with
    | some l, some u => some (.comb "AND" [.gteF field_name l, .lteF field_name u])
    | some l, none => some (.gteF field_name l)
    | none, some u => some (.lteF field_name u)
    | none, none => none
  else none

/-- Embeds `parse_simple_filter`: with a schema handler (`useSchema = true`)
it delegates to `parse_filter_value`; without one, only the OPTION type is
handled and the selected values are wrapped in an `IN` unconditionally. -/
def parse_simple_filter (field_name : String) (fv : FilterValue) (useSchema : Bool) :
    Option GqlF :=
  if useSchema then parse_filter_value field_name fv
  else if fv.type = FILTER_TYPE.OPTION then some (.inF [(field_name, fv.selectedValues)])
  else none

/-- Python `key.split('.')` at the character-list level. -/
def pySplit (sep : Char) : List Char → List (List Char)
  | [] => [[]]
  | c :: rest =>
    let r := pySplit sep rest
    if c = sep then [] :: r
    else (c :: r.headD []) :: r.tail

/-- Python `key.split('.')` on strings. -/
def splitKey (k : String) : List String := (pySplit '.' k.data).map String.mk

/-- A FilterState dict: `__type`, `__combineMode` and the `value` mapping.
This embeds the STANDARD shape (`value` a key→FilterValue dict); the
COMPOSED variant of the source carries a list of child states instead and
is outside the domain of the claims under check. -/
structure FilterState where
  type : String
  combineMode : String
  value : List (String × FilterValue)
deriving DecidableEq

/-- One iteration of the `for filter_key, filter_values in ...` loop of
`getGQLFilter`: the accumulator is (simple_filters, nested groups).
ANCHORED values go through `parse_anchored_filters`, which is a placeholder
returning `[]`, so they contribute nothing. -/
def encodeStep (useSchema : Bool) (acc : List GqlF × List (String × List GqlF))
    (kv : String × FilterValue) : List GqlF × List (String × List GqlF) :=
  let parts := splitKey kv.1
  let field_str := parts.headD ""
  let nested_field_str := parts[1]?
  let field_name := nested_field_str.getD field_str
  if kv.2.type = FILTER_TYPE.ANCHORED then acc
  else
    match parse_simple_filter field_name kv.2 useSchema with
    | none => acc
    | some f =>
      match nested_field_str with
      | some _ => (acc.1, dictAppend acc.2 field_str f)
      | none => (acc.1 ++ [f], acc.2)

/-- The list `simple_filters + nested_filters` that `getGQLFilter` combines
at the end (each nested group becomes `{'nested': {'path': p, mode: [...]}}`). -/
def encodeConds (useSchema : Bool) (combineMode : String)
    (value : List (String × FilterValue)) : List GqlF :=
  let acc := value.foldl (encodeStep useSchema) ([], [])
  acc.1 ++ acc.2.map (fun pc => GqlF.nested pc.1 combineMode pc.2)

/-- Embeds `getGQLFilter` on STANDARD-shaped FilterStates (the COMPOSED
recursion of the source is outside this domain; the claims under check
quantify over STANDARD states). `useSchema` selects whether a
`SchemaTypeHandler` was passed. -/
def getGQLFilter (useSchema : Bool) (filter_state : Option FilterState) : Option GqlF :=
  match filter_state with
  | none => none
  | some fs =>
    if fs.value = [] then none
    else
      let conds := encodeConds useSchema fs.combineMode fs.value
      if conds = [] then none else some (.comb fs.combineMode conds)

/-- The nested-block decoding inside `getFilterState`: only `IN` entries of
a nested filter are decoded, keyed `"path.field"`; everything else
(GTE/LTE included) is skipped. -/
def decodeNestedChild (path : String) (vs : List (String × FilterValue)) (child : GqlF) :
    List (String × FilterValue) :=
  match child with
  | .inF entries =>
      entries.foldl (fun acc kv => dictInsert acc (path ++ "." ++ kv.1) (optionFV kv.2 false)) vs
  | _ => vs

/-- Python `values[field] = Range(...)` / bound update inside
`getFilterState`: create a fresh Range entry, or update the matching bound
of whatever dict is already stored under the field. -/
def rangeUpdate (values : List (String × FilterValue)) (k : String) (isGTE : Bool) (v : Val) :
    List (String × FilterValue) :=
  match dictLookup values k with
  | none =>
      dictInsert values k
        (rangeFV (if isGTE then some v else none) (if isGTE then none else some v))
  | some old =>
      dictInsert values k
        (if isGTE then { old with lowerBound := some v } else { old with upperBound := some v })

/-- One iteration of the `for filter_value in filter_values` loop of
`getFilterState`: IN children build an Option dict and merge it under the
existing values (`values = {**option, **values}`); GTE/LTE merge range
bounds; nested children decode their IN entries; everything else is
ignored. -/
def decodeChild (values : List (String × FilterValue)) (child : GqlF) :
    List (String × FilterValue) :=
  match child with
  | .inF entries =>
      let option := entries.foldl (fun o kv => dictInsert o kv.1 (optionFV kv.2 false)) []
      dictMerge option values
  | .gteF field v => rangeUpdate values field true v
  | .lteF field v => rangeUpdate values field false v
  | .nested path op children =>
      if op = "AND" ∨ op = "OR" then children.foldl (decodeNestedChild path) values
      else values
  | _ => values

/-- Embeds `getFilterState`: take the filter's first key as the combinator;
an empty child list is `None`; a combinator other than AND/OR (including a
top-level IN/GTE/LTE/nested object) falls through to the final
`return None`. -/
def getFilterState (gql_filter : Option GqlF) : Option FilterState :=
  match gql_filter with
  | none => none
  | some g =>
    match g with
    | .comb op children =>
        if children = [] then none
        else if op = "AND" ∨ op = "OR" then
          some { type := FILTER_TYPE.STANDARD, combineMode := op,
                 value := children.foldl decodeChild [] }
        else none
    | .inF entries => if entries = [] then none else none
    | _ => none

/-! ### Claim C10: decode output is always a STANDARD state keyed by the outer combinator -/

/-- C10: for every non-null input filter, `getFilterState` returns either
`none` or a FilterState whose `__type` is STANDARD and whose
`__combineMode` is the input's outer key and is one of AND or OR; it never
produces a COMPOSED or ANCHORED state. -/
theorem C10_decode_standard_only (g : GqlF) :
    getFilterState (some g) = none ∨
    ∃ vals, getFilterState (some g) =
        some { type := FILTER_TYPE.STANDARD, combineMode := g.outerKey, value := vals } ∧
      (g.outerKey = "AND" ∨ g.outerKey = "OR") := by
  cases g with
  | comb op children =>
    by_cases h1 : children = []
    · left; simp [getFilterState, h1]
    · by_cases h2 : op = "AND" ∨ op = "OR"
      · right
        refine ⟨children.foldl decodeChild [], ?_, by simpa [GqlF.outerKey] using h2⟩
        simp [getFilterState, h1, h2, GqlF.outerKey]
      · left; simp [getFilterState, h1, h2]
  | inF entries => left; simp [getFilterState]
  | gteF f v => left; simp [getFilterState]
  | lteF f v => left; simp [getFilterState]
  | gtF f v => left; simp [getFilterState]
  | ltF f v => left; simp [getFilterState]
  | containsF f v => left; simp [getFilterState]
  | nested p op children => left; simp [getFilterState]

/-! ### Claim C2: precedence between two IN entries for the same field in decode -/

/-- The input of the C2 scenario: an AND filter with two IN children for the
same field. -/
def c2Input : GqlF :=
  .comb "AND" [.inF [("race", Val.list [Val.str "Asian"])],
               .inF [("race", Val.list [Val.str "White"])]]

/-- C2 counterexample: the claim says the later IN entry ("White") overwrites
the earlier one, but `values = {**option, **values}` in `getFilterState`
keeps the earlier entry: the decoded state holds "Asian", not "White". -/
theorem C2_counterexample :
    getFilterState (some c2Input) =
      some { type := "STANDARD", combineMode := "AND",
             value := [("race", optionFV (Val.list [Val.str "Asian"]) false)] } ∧
    getFilterState (some c2Input) ≠
      some { type := "STANDARD", combineMode := "AND",
             value := [("race", optionFV (Val.list [Val.str "White"]) false)] } := by
  decide

/-- C2 amended: when the children of the outer AND/OR combinator contain two
IN entries for the same field, the EARLIER entry's Option FilterValue wins
(the later entry does not overwrite it). -/
theorem C2_amended_earlier_in_entry_wins (op f : String) (v1 v2 : Val)
    (h : op = "AND" ∨ op = "OR") :
    getFilterState (some (.comb op [.inF [(f, v1)], .inF [(f, v2)]])) =
      some { type := FILTER_TYPE.STANDARD, combineMode := op,
             value := [(f, optionFV v1 false)] } := by
  rcases h with h | h <;> subst h <;>
    simp [getFilterState, decodeChild, dictMerge, dictInsert, FILTER_TYPE.STANDARD]

/-- Witness for the amended C2 at a concrete input. -/
theorem C2_amended_witness :
    ("AND" = "AND" ∨ "AND" = "OR") ∧
    getFilterState (some (.comb "AND" [.inF [("sex", Val.list [Val.str "Male"])],
        .inF [("sex", Val.list [Val.str "Female"])]])) =
      some { type := FILTER_TYPE.STANDARD, combineMode := "AND",
             value := [("sex", optionFV (Val.list [Val.str "Male"]) false)] } :=
  ⟨Or.inl rfl,
    C2_amended_earlier_in_entry_wins "AND" "sex" (Val.list [Val.str "Male"])
      (Val.list [Val.str "Female"]) (Or.inl rfl)⟩

/-! ### Claim C3: shape of the encoder output -/

/-- A STANDARD FilterState contributing exactly one condition. -/
def c3State : FilterState :=
  { type := "STANDARD", combineMode := "AND",
    value := [("race", optionFV (Val.list [Val.str "Asian"]) false)] }

/-- C3 counterexample: the claim says a single contributed condition is
returned unwrapped, but `getGQLFilter` always wraps the condition list in
`{combineMode: [...]}` (with or without a schema handler). -/
theorem C3_counterexample :
    getGQLFilter false (some c3State) =
      some (.comb "AND" [.inF [("race", Val.list [Val.str "Asian"])]]) ∧
    getGQLFilter false (some c3State) ≠
      some (.inF [("race", Val.list [Val.str "Asian"])]) ∧
    getGQLFilter true (some c3State) =
      some (.comb "AND" [.inF [("race", Val.list [Val.str "Asian"])]]) := by
  decide

/-- C3 amended: for every STANDARD FilterState, `getGQLFilter` returns null
exactly when the state contributes zero conditions, and otherwise returns
`{combineMode: [conditions]}` even when there is exactly one condition (the
single condition is never unwrapped). -/
theorem C3_encode_null_or_wrapped (useSchema : Bool) (st : FilterState)
    (_hstd : st.type = FILTER_TYPE.STANDARD) :
    (getGQLFilter useSchema (some st) = none ↔
      encodeConds useSchema st.combineMode st.value = []) ∧
    (encodeConds useSchema st.combineMode st.value ≠ [] →
      getGQLFilter useSchema (some st) =
        some (.comb st.combineMode (encodeConds useSchema st.combineMode st.value))) := by
  clear _hstd
  by_cases hv : st.value = []
  · have hnil : encodeConds useSchema st.combineMode st.value = [] := by
      simp [hv, encodeConds]
    constructor
    · simp [getGQLFilter, hv, hnil, encodeConds]
    · intro h; exact absurd hnil h
  · by_cases hc : encodeConds useSchema st.combineMode st.value = []
    · constructor
      · simp [getGQLFilter, hv, hc]
      · intro h; exact absurd hc h
    · constructor
      · simp [getGQLFilter, hv, hc]
      · intro _; simp [getGQLFilter, hv, hc]

/-- Witness for the amended C3 at a concrete input: a one-condition state is
returned wrapped. -/
theorem C3_encode_null_or_wrapped_witness :
    c3State.type = FILTER_TYPE.STANDARD ∧
    encodeConds false c3State.combineMode c3State.value ≠ [] ∧
    getGQLFilter false (some c3State) =
      some (.comb c3State.combineMode (encodeConds false c3State.combineMode c3State.value)) :=
  ⟨by decide, by decide,
    (C3_encode_null_or_wrapped false c3State (by decide)).2 (by decide)⟩

/-! ### Claim C1: round-trip decode(encode(s)) for Option/Range states -/

/-- The round-trip property asserted by the claim: decoding the encoding of
`st` yields a state with identical selected values for every Option key and
identical bounds for every Range key. -/
def optionRangeRoundTrip (useSchema : Bool) (st : FilterState) : Prop :=
  ∃ st2, getFilterState (getGQLFilter useSchema (some st)) = some st2 ∧
    (∀ k fv, dictLookup st.value k = some fv → fv.type = FILTER_TYPE.OPTION →
      ∃ fv2, dictLookup st2.value k = some fv2 ∧ fv2.selectedValues = fv.selectedValues) ∧
    (∀ k fv, dictLookup st.value k = some fv → fv.type = FILTER_TYPE.RANGE →
      ∃ fv2, dictLookup st2.value k = some fv2 ∧ fv2.lowerBound = fv.lowerBound ∧
        fv2.upperBound = fv.upperBound)

/-- The concrete state of the claim:
`{"race": Option(["Asian"]), "age_at_censor_status": Range(0, 18)}`. -/
def c1State : FilterState :=
  { type := "STANDARD", combineMode := "AND",
    value := [("race", optionFV (Val.list [Val.str "Asian"]) false),
              ("age_at_censor_status", rangeFV (some (Val.int 0)) (some (Val.int 18)))] }

/-- A state with a single-bound Range under a nested (`entity.field`) key. -/
def c1NestedRangeState : FilterState :=
  { type := "STANDARD", combineMode := "AND",
    value := [("race", optionFV (Val.list [Val.str "Asian"]) false),
              ("tumor_assessments.age_at_tumor_assessment",
                rangeFV (some (Val.int 5)) none)] }

/-- A STANDARD state with empty values. -/
def c1EmptyState : FilterState :=
  { type := "STANDARD", combineMode := "AND", value := [] }

/-! ### Dictionary and splitter lemmas used by the C1 development -/

theorem dictLookup_nil (k : String) : dictLookup [] k = none := rfl

theorem dictLookup_append (a b : List (String × FilterValue)) (k : String) :
    dictLookup (a ++ b) k =
      match dictLookup a k with
      | some v => some v
      | none => dictLookup b k := by
  induction a with
  | nil => simp [dictLookup]
  | cons hd tl ih =>
    by_cases h : hd.1 == k
    · simp [dictLookup, List.find?, h]
    · simpa [dictLookup, List.find?, h] using ih

theorem dictLookup_eq_none_iff (d : List (String × FilterValue)) (k : String) :
    dictLookup d k = none ↔ k ∉ d.map Prod.fst := by
  induction d with
  | nil => simp [dictLookup]
  | cons hd tl ih =>
    obtain ⟨a, b⟩ := hd
    by_cases h : a = k
    · subst h
      simp [dictLookup, List.find?]
    · have hb : (a == k) = false := by simpa using h
      have ih' : (List.find? (fun kv => kv.1 == k) tl).map (·.2) = none ↔
          k ∉ tl.map Prod.fst := ih
      simp only [dictLookup, List.find?, hb, List.map_cons, List.mem_cons]
      rw [ih']
      have hne : ¬ k = a := fun he => h he.symm
      simp [hne]

theorem dictLookup_mem (d : List (String × FilterValue)) (k : String) (v : FilterValue)
    (h : dictLookup d k = some v) : (k, v) ∈ d := by
  induction d with
  | nil => simp [dictLookup] at h
  | cons hd tl ih =>
    obtain ⟨a, b⟩ := hd
    by_cases hk : a = k
    · subst hk
      simp only [dictLookup, List.find?, beq_self_eq_true] at h
      have hb2 : b = v := by simpa using h
      rw [← hb2]
      exact List.mem_cons_self ..
    · have hb : (a == k) = false := by simpa using hk
      simp only [dictLookup, List.find?, hb] at h
      exact List.mem_cons_of_mem _ (ih h)

theorem mem_dictLookup (d : List (String × FilterValue)) (k : String) (v : FilterValue)
    (hnd : (d.map Prod.fst).Nodup) (h : (k, v) ∈ d) : dictLookup d k = some v := by
  induction d with
  | nil => simp at h
  | cons hd tl ih =>
    simp only [List.map_cons, List.nodup_cons] at hnd
    rcases List.mem_cons.mp h with h | h
    · subst h
      simp [dictLookup, List.find?]
    · have hne : hd.1 ≠ k := by
        intro he
        exact hnd.1 (he ▸ List.mem_map.mpr ⟨(k, v), h, rfl⟩)
      simp only [dictLookup, List.find?, show (hd.1 == k) = false by simpa using hne]
      exact ih hnd.2 h

theorem dictLookup_perm (d1 d2 : List (String × FilterValue)) (k : String)
    (hperm : List.Perm d1 d2) (hnd : (d1.map Prod.fst).Nodup) :
    dictLookup d1 k = dictLookup d2 k := by
  have hnd2 : (d2.map Prod.fst).Nodup := (hperm.map Prod.fst).nodup_iff.mp hnd
  cases h1 : dictLookup d1 k with
  | some v =>
    exact (mem_dictLookup d2 k v hnd2 (hperm.mem_iff.mp (dictLookup_mem d1 k v h1))).symm
  | none =>
    cases h2 : dictLookup d2 k with
    | none => rfl
    | some v =>
      have := hperm.mem_iff.mpr (dictLookup_mem d2 k v h2)
      rw [mem_dictLookup d1 k v hnd this] at h1
      cases h1

theorem dictLookup_append_left (a b : List (String × FilterValue)) (k : String)
    (v : FilterValue) (h : dictLookup a k = some v) : dictLookup (a ++ b) k = some v := by
  rw [dictLookup_append, h]

theorem dictLookup_append_right (a b : List (String × FilterValue)) (k : String)
    (h : dictLookup a k = none) : dictLookup (a ++ b) k = dictLookup b k := by
  rw [dictLookup_append, h]

theorem dictInsert_fresh (d : List (String × FilterValue)) (k : String) (v : FilterValue)
    (h : dictLookup d k = none) : dictInsert d k v = d ++ [(k, v)] := by
  have hn : k ∉ d.map Prod.fst := (dictLookup_eq_none_iff d k).mp h
  have : d.any (fun kv => kv.1 == k) = false := by
    simp only [List.any_eq_false]
    intro kv hmem
    simp only [beq_iff_eq]
    intro he
    exact hn (List.mem_map.mpr ⟨kv, hmem, he⟩)
  simp [dictInsert, this]

theorem dictMerge_fresh : ∀ (b a : List (String × FilterValue)),
    (∀ kv ∈ b, dictLookup a kv.1 = none) → (b.map Prod.fst).Nodup →
    dictMerge a b = a ++ b := by
  intro b
  induction b with
  | nil => intro a _ _; simp [dictMerge]
  | cons hd tl ih =>
    intro a hdisj hb
    obtain ⟨k0, v0⟩ := hd
    have hfresh : dictLookup a k0 = none := hdisj (k0, v0) (List.mem_cons_self ..)
    simp only [List.map_cons, List.nodup_cons] at hb
    have hdisj2 : ∀ kv ∈ tl, dictLookup (a ++ [(k0, v0)]) kv.1 = none := by
      intro kv hmem
      rw [dictLookup_append_right _ _ _ (hdisj kv (List.mem_cons_of_mem _ hmem))]
      have hne : (k0 == kv.1) = false := by
        simp only [beq_eq_false_iff_ne, ne_eq]
        intro he
        exact hb.1 (he ▸ List.mem_map.mpr ⟨kv, hmem, rfl⟩)
      simp [dictLookup, List.find?, hne]
    have step : dictMerge a ((k0, v0) :: tl) = dictMerge (a ++ [(k0, v0)]) tl := by
      simp [dictMerge, dictInsert_fresh a k0 v0 hfresh]
    rw [step, ih (a ++ [(k0, v0)]) hdisj2 hb.2, List.append_assoc, List.singleton_append]

theorem pySplit_ne_nil (sep : Char) (l : List Char) : pySplit sep l ≠ [] := by
  cases l with
  | nil => simp [pySplit]
  | cons c rest => by_cases h : c = sep <;> simp [pySplit, h]

theorem pySplit_no_sep (sep : Char) (l : List Char) (h : sep ∉ l) : pySplit sep l = [l] := by
  induction l with
  | nil => rfl
  | cons c rest ih =>
    have hc : c ≠ sep := fun he => h (he ▸ List.mem_cons_self ..)
    have hr : sep ∉ rest := fun hm => h (List.mem_cons_of_mem _ hm)
    simp [pySplit, hc, ih hr]

theorem pySplit_sep_cons (sep : Char) (a b : List Char) (ha : sep ∉ a) :
    pySplit sep (a ++ sep :: b) = a :: pySplit sep b := by
  induction a with
  | nil => simp [pySplit]
  | cons c a2 ih =>
    have hc : c ≠ sep := fun he => ha (he ▸ List.mem_cons_self ..)
    have ha2 : sep ∉ a2 := fun hm => ha (List.mem_cons_of_mem _ hm)
    simp [pySplit, hc, ih ha2]

theorem pySplit_two (sep : Char) (a b : List Char) (ha : sep ∉ a) (hb : sep ∉ b) :
    pySplit sep (a ++ sep :: b) = [a, b] := by
  rw [pySplit_sep_cons sep a b ha, pySplit_no_sep sep b hb]

theorem pySplit_length_cons (sep c : Char) (rest : List Char) (hc : c ≠ sep) :
    (pySplit sep (c :: rest)).length = (pySplit sep rest).length := by
  simp only [pySplit, if_neg hc]
  cases hr : pySplit sep rest with
  | nil => exact absurd hr (pySplit_ne_nil sep rest)
  | cons x xs => simp [hr]

theorem two_le_pySplit_length (sep : Char) (l : List Char) (h : sep ∈ l) :
    2 ≤ (pySplit sep l).length := by
  induction l with
  | nil => simp at h
  | cons c rest ih =>
    by_cases hc : c = sep
    · subst hc
      have h1 : 0 < (pySplit c rest).length :=
        List.length_pos.mpr (pySplit_ne_nil c rest)
      simp only [pySplit, if_true, List.length_cons]
      omega
    · have hr : sep ∈ rest := by
        rcases List.mem_cons.mp h with h | h
        · exact absurd h.symm hc
        · exact h
      rw [pySplit_length_cons sep c rest hc]
      exact ih hr

theorem pySplit_length_le_two (sep : Char) (l : List Char)
    (h : (pySplit sep l).length ≤ 2) :
    sep ∉ l ∨ ∃ a b, sep ∉ a ∧ sep ∉ b ∧ l = a ++ sep :: b := by
  induction l with
  | nil => left; simp
  | cons c rest ih =>
    by_cases hc : c = sep
    · subst hc
      right
      refine ⟨[], rest, by simp, ?_, by simp⟩
      by_contra hmem
      have h2 := two_le_pySplit_length c rest hmem
      simp only [pySplit, if_true, List.length_cons] at h
      omega
    · rw [pySplit_length_cons sep c rest hc] at h
      rcases ih h with hfree | ⟨a, b, ha, hb, he⟩
      · left
        intro hmem
        rcases List.mem_cons.mp hmem with h2 | h2
        · exact hc h2.symm
        · exact hfree h2
      · right
        refine ⟨c :: a, b, ?_, hb, by simp [he]⟩
        intro hm
        rcases List.mem_cons.mp hm with h2 | h2
        · exact hc h2.symm
        · exact ha h2

theorem splitKey_dotFree (k : String) (h : '.' ∉ k.data) : splitKey k = [k] := by
  simp [splitKey, pySplit_no_sep '.' k.data h]

theorem string_data_dot_append (e f : String) :
    (e ++ "." ++ f).data = e.data ++ '.' :: f.data := by
  simp [String.data_append]

theorem splitKey_two (e f : String) (he : '.' ∉ e.data) (hf : '.' ∉ f.data) :
    splitKey (e ++ "." ++ f) = [e, f] := by
  simp [splitKey, string_data_dot_append, pySplit_two '.' e.data f.data he hf]

theorem string_eq_of_data_eq (a b : String) (h : a.data = b.data) : a = b := by
  cases a
  cases b
  exact congrArg String.mk h

/-- The `"path.field"` Option entries a child of a nested block contributes
during decoding (only IN children are decoded there). -/
def nestedEntry (p : String) : GqlF → List (String × FilterValue)
  | .inF entries => entries.map (fun kv => (p ++ "." ++ kv.1, optionFV kv.2 false))
  | _ => []

/-- The key→FilterValue entries a single decoded child contributes to the
resulting state (proof-side characterisation of `decodeChild`). -/
def childEntries : GqlF → List (String × FilterValue)
  | .inF entries => entries.map (fun kv => (kv.1, optionFV kv.2 false))
  | .gteF f v => [(f, rangeFV (some v) none)]
  | .lteF f v => [(f, rangeFV none (some v))]
  | .nested p op cs =>
      if op = "AND" ∨ op = "OR" then (cs.map (nestedEntry p)).flatten else []
  | _ => []

/-- The child shapes the encoder emits for Option and single-bound Range
entries. -/
inductive GoodChild : GqlF → Prop
  | inSingle (f : String) (v : Val) : GoodChild (.inF [(f, v)])
  | gteG (f : String) (v : Val) : GoodChild (.gteF f v)
  | lteG (f : String) (v : Val) : GoodChild (.lteF f v)
  | nestedG (p op : String) (cs : List GqlF) (hop : op = "AND" ∨ op = "OR")
      (hcs : ∀ c ∈ cs, ∃ f v, c = GqlF.inF [(f, v)]) : GoodChild (.nested p op cs)

theorem ne_of_lookup_none (values : List (String × FilterValue)) (f : String)
    (h : dictLookup values f = none) : ∀ kv ∈ values, kv.1 ≠ f := by
  intro kv hmem he
  exact (dictLookup_eq_none_iff values f).mp h (List.mem_map.mpr ⟨kv, hmem, he⟩)

theorem decodeNestedFold (p : String) : ∀ (cs : List GqlF)
    (values : List (String × FilterValue)),
    (∀ c ∈ cs, ∃ f v, c = GqlF.inF [(f, v)]) →
    (∀ kv ∈ (cs.map (nestedEntry p)).flatten, dictLookup values kv.1 = none) →
    (((cs.map (nestedEntry p)).flatten).map Prod.fst).Nodup →
    cs.foldl (decodeNestedChild p) values = values ++ (cs.map (nestedEntry p)).flatten := by
  intro cs
  induction cs with
  | nil => intro values _ _ _; simp
  | cons c rest ih =>
    intro values hcs hdisj hnd
    obtain ⟨f, v, rfl⟩ := hcs _ (List.mem_cons_self ..)
    have hkey : dictLookup values (p ++ "." ++ f) = none := by
      refine hdisj (p ++ "." ++ f, optionFV v false) ?_
      simp [nestedEntry]
    have hstep : decodeNestedChild p values (.inF [(f, v)]) =
        values ++ [(p ++ "." ++ f, optionFV v false)] := by
      simp only [decodeNestedChild, List.foldl_cons, List.foldl_nil]
      exact dictInsert_fresh values (p ++ "." ++ f) (optionFV v false) hkey
    simp only [List.foldl_cons, hstep]
    have hje : ((GqlF.inF [(f, v)] :: rest).map (nestedEntry p)).flatten =
        (p ++ "." ++ f, optionFV v false) :: (rest.map (nestedEntry p)).flatten := by
      simp [nestedEntry]
    rw [hje] at hnd hdisj
    simp only [List.map_cons, List.nodup_cons] at hnd
    have hdisj2 : ∀ kv ∈ (rest.map (nestedEntry p)).flatten,
        dictLookup (values ++ [(p ++ "." ++ f, optionFV v false)]) kv.1 = none := by
      intro kv hmem
      rw [dictLookup_append_right _ _ _ (hdisj kv (List.mem_cons_of_mem _ hmem))]
      have hne : kv.1 ≠ p ++ "." ++ f := by
        intro he
        exact hnd.1 (he ▸ List.mem_map.mpr ⟨kv, hmem, rfl⟩)
      simp [dictLookup, List.find?, show ((p ++ "." ++ f) == kv.1) = false by
        simpa using fun he => hne he.symm]
    have hcs2 : ∀ c ∈ rest, ∃ f2 v2, c = GqlF.inF [(f2, v2)] :=
      fun c hc => hcs c (List.mem_cons_of_mem _ hc)
    rw [ih (values ++ [(p ++ "." ++ f, optionFV v false)]) hcs2 hdisj2 hnd.2,
      hje, List.append_assoc, List.singleton_append]

theorem decodeChild_perm (c : GqlF) (values : List (String × FilterValue))
    (hg : GoodChild c)
    (hvk : (values.map Prod.fst).Nodup)
    (hck : ((childEntries c).map Prod.fst).Nodup)
    (hdisj : ∀ kv ∈ childEntries c, dictLookup values kv.1 = none) :
    List.Perm (decodeChild values c) (values ++ childEntries c) := by
  cases hg with
  | inSingle f v =>
    have hkey : dictLookup values f = none :=
      hdisj (f, optionFV v false) (by simp [childEntries])
    have hstep : decodeChild values (.inF [(f, v)]) =
        dictMerge [(f, optionFV v false)] values := by
      simp [decodeChild, dictInsert]
    rw [hstep, dictMerge_fresh values [(f, optionFV v false)] ?_ hvk]
    · have : childEntries (GqlF.inF [(f, v)]) = [(f, optionFV v false)] := by
        simp [childEntries]
      rw [this]
      exact List.perm_append_comm
    · intro kv hmem
      have hne : kv.1 ≠ f := ne_of_lookup_none values f hkey kv hmem
      simp [dictLookup, List.find?, show (f == kv.1) = false by
        simpa using fun he => hne he.symm]
  | gteG f v =>
    have hkey : dictLookup values f = none :=
      hdisj (f, rangeFV (some v) none) (by simp [childEntries])
    have hstep : decodeChild values (.gteF f v) =
        values ++ [(f, rangeFV (some v) none)] := by
      simp only [decodeChild, rangeUpdate, hkey]
      exact dictInsert_fresh values f _ hkey
    rw [hstep]
    simp [childEntries]
  | lteG f v =>
    have hkey : dictLookup values f = none :=
      hdisj (f, rangeFV none (some v)) (by simp [childEntries])
    have hstep : decodeChild values (.lteF f v) =
        values ++ [(f, rangeFV none (some v))] := by
      simp only [decodeChild, rangeUpdate, hkey]
      exact dictInsert_fresh values f _ hkey
    rw [hstep]
    simp [childEntries]
  | nestedG p op cs hop hcs =>
    have hce : childEntries (GqlF.nested p op cs) = (cs.map (nestedEntry p)).flatten := by
      simp [childEntries, hop]
    rw [hce] at hdisj hck
    have hstep : decodeChild values (.nested p op cs) =
        cs.foldl (decodeNestedChild p) values := by
      simp [decodeChild, hop]
    rw [hstep, decodeNestedFold p cs values hcs hdisj hck, hce]

theorem decodeFold_lookup : ∀ (cs : List GqlF) (values : List (String × FilterValue)),
    (∀ c ∈ cs, GoodChild c) →
    ((values ++ (cs.map childEntries).flatten).map Prod.fst).Nodup →
    ∀ k, dictLookup (cs.foldl decodeChild values) k =
      dictLookup (values ++ (cs.map childEntries).flatten) k := by
  intro cs
  induction cs with
  | nil => intro values _ _ k; simp
  | cons c rest ih =>
    intro values hg hnd k
    have hflat : ((c :: rest).map childEntries).flatten =
        childEntries c ++ (rest.map childEntries).flatten := by simp
    rw [hflat] at hnd
    have hnd2 : (values.map Prod.fst ++ ((childEntries c).map Prod.fst ++
        ((rest.map childEntries).flatten).map Prod.fst)).Nodup := by
      simpa [List.map_append] using hnd
    rw [List.nodup_append] at hnd2
    obtain ⟨hvk, hrest, hdisj0⟩ := hnd2
    rw [List.nodup_append] at hrest
    obtain ⟨hck, hjk, hdisj1⟩ := hrest
    have hdisj : ∀ kv ∈ childEntries c, dictLookup values kv.1 = none := by
      intro kv hmem
      rw [dictLookup_eq_none_iff]
      intro hmemv
      exact hdisj0 hmemv (List.mem_append_left _ (List.mem_map.mpr ⟨kv, hmem, rfl⟩))
    have hperm := decodeChild_perm c values (hg c (List.mem_cons_self ..)) hvk hck hdisj
    have hpermappend : List.Perm (decodeChild values c ++ (rest.map childEntries).flatten)
        ((values ++ childEntries c) ++ (rest.map childEntries).flatten) :=
      hperm.append_right _
    have hndtarget : (((values ++ childEntries c) ++
        (rest.map childEntries).flatten).map Prod.fst).Nodup := by
      simp only [List.map_append]
      rw [List.nodup_append, List.nodup_append]
      refine ⟨⟨hvk, hck, ?_⟩, hjk, ?_⟩
      · intro a ha hb
        exact hdisj0 ha (List.mem_append_left _ hb)
      · intro a ha hb
        rcases List.mem_append.mp ha with ha1 | ha2
        · exact hdisj0 ha1 (List.mem_append_right _ hb)
        · exact hdisj1 ha2 hb
    have hnd_d : ((decodeChild values c ++
        (rest.map childEntries).flatten).map Prod.fst).Nodup :=
      ((hpermappend.map Prod.fst).nodup_iff).mpr (by simpa [List.map_append] using hndtarget)
    have hg2 : ∀ x ∈ rest, GoodChild x := fun x hx => hg x (List.mem_cons_of_mem _ hx)
    have hih := ih (decodeChild values c) hg2 (by simpa [List.map_append] using hnd_d) k
    simp only [List.foldl_cons]
    rw [hih, dictLookup_perm _ _ k hpermappend hnd_d, hflat, ← List.append_assoc]

/-- The FilterValue that decode reconstructs for an encoded Option or
single-bound Range value. -/
def imageFV (fv : FilterValue) : FilterValue :=
  if fv.type = FILTER_TYPE.OPTION then optionFV fv.selectedValues false
  else rangeFV fv.lowerBound fv.upperBound

/-- Entry-level version of `imageFV`. -/
def imageEntry (kv : String × FilterValue) : String × FilterValue := (kv.1, imageFV kv.2)

/-- The entries the amended round-trip claim quantifies over: Option values
with truthy selections at bare or single-dot keys, and Range values with
exactly one bound at bare keys. -/
def GoodEntry (kv : String × FilterValue) : Prop :=
  (kv.2.type = FILTER_TYPE.OPTION ∧ kv.2.selectedValues.truthy = true ∧
    (splitKey kv.1).length ≤ 2) ∨
  (kv.2.type = FILTER_TYPE.RANGE ∧ '.' ∉ kv.1.data ∧
    ((kv.2.lowerBound.isSome = true ∧ kv.2.upperBound = none) ∨
     (kv.2.lowerBound = none ∧ kv.2.upperBound.isSome = true)))

instance (kv : String × FilterValue) : Decidable (GoodEntry kv) := by
  unfold GoodEntry
  infer_instance

/-- Well-formedness of the encoder's fold accumulator. -/
def AccGood (acc : List GqlF × List (String × List GqlF)) : Prop :=
  (∀ c ∈ acc.1, GoodChild c) ∧
  (∀ pc ∈ acc.2, ∀ c ∈ pc.2, ∃ f v, c = GqlF.inF [(f, v)])

/-- The condition list `simple_filters + nested_filters` built from an
encoder accumulator. -/
def accConds (combineMode : String) (acc : List GqlF × List (String × List GqlF)) :
    List GqlF :=
  acc.1 ++ acc.2.map (fun pc => GqlF.nested pc.1 combineMode pc.2)

theorem encodeConds_eq_accConds (u : Bool) (m : String) (v : List (String × FilterValue)) :
    encodeConds u m v = accConds m (v.foldl (encodeStep u) ([], [])) := rfl

theorem dictAppend_mem {α : Type} : ∀ (groups : List (String × List α)) (p : String) (x : α),
    ∀ pc ∈ dictAppend groups p x, ∀ y ∈ pc.2, (∃ pc0 ∈ groups, y ∈ pc0.2) ∨ y = x := by
  intro groups
  induction groups with
  | nil =>
    intro p x pc hpc y hy
    simp only [dictAppend, List.mem_singleton] at hpc
    subst hpc
    simp only [List.mem_singleton] at hy
    exact Or.inr hy
  | cons g rest ih =>
    intro p x pc hpc y hy
    obtain ⟨q, cs⟩ := g
    by_cases hq : q = p
    · subst hq
      simp only [dictAppend, if_true] at hpc
      rcases List.mem_cons.mp hpc with h | h
      · subst h
        rcases List.mem_append.mp hy with h2 | h2
        · exact Or.inl ⟨(q, cs), List.mem_cons_self .., h2⟩
        · exact Or.inr (by simpa using h2)
      · exact Or.inl ⟨pc, List.mem_cons_of_mem _ h, hy⟩
    · simp only [dictAppend, if_neg hq] at hpc
      rcases List.mem_cons.mp hpc with h | h
      · subst h
        exact Or.inl ⟨(q, cs), List.mem_cons_self .., hy⟩
      · rcases ih p x pc h y hy with ⟨pc0, hpc0, hy0⟩ | h0
        · exact Or.inl ⟨pc0, List.mem_cons_of_mem _ hpc0, hy0⟩
        · exact Or.inr h0

theorem nested_flatten_dictAppend (mode p : String) (hm : mode = "AND" ∨ mode = "OR")
    (c : GqlF) : ∀ (groups : List (String × List GqlF)),
    List.Perm
      ((((dictAppend groups p c).map
          (fun pc => GqlF.nested pc.1 mode pc.2)).map childEntries).flatten)
      ((((groups.map (fun pc => GqlF.nested pc.1 mode pc.2)).map childEntries).flatten)
        ++ nestedEntry p c) := by
  intro groups
  induction groups with
  | nil =>
    simp [dictAppend, childEntries, hm]
  | cons g rest ih =>
    obtain ⟨q, cs⟩ := g
    by_cases hq : q = p
    · subst hq
      simp only [dictAppend, if_true, List.map_cons, List.flatten_cons]
      have hgrp : childEntries (GqlF.nested q mode (cs ++ [c])) =
          childEntries (GqlF.nested q mode cs) ++ nestedEntry q c := by
        simp [childEntries, hm]
      rw [hgrp, List.append_assoc, List.append_assoc]
      exact List.Perm.append_left _ List.perm_append_comm
    · simp only [dictAppend, if_neg hq, List.map_cons, List.flatten_cons]
      rw [List.append_assoc]
      exact List.Perm.append_left _ ih

theorem encodeStep_spec (mode : String) (hm : mode = "AND" ∨ mode = "OR")
    (acc : List GqlF × List (String × List GqlF)) (kv : String × FilterValue)
    (hk : GoodEntry kv) (hacc : AccGood acc) :
    AccGood (encodeStep true acc kv) ∧
    List.Perm (((accConds mode (encodeStep true acc kv)).map childEntries).flatten)
      (((accConds mode acc).map childEntries).flatten ++ [imageEntry kv]) := by
  obtain ⟨k, fv⟩ := kv
  dsimp only [GoodEntry] at hk
  rcases hk with ⟨hO, hT, hL⟩ | ⟨hR, hfree, hbounds⟩
  · -- Option entry, bare or single-dot key
    have hna : ¬ fv.type = FILTER_TYPE.ANCHORED := by
      rw [hO]; decide
    have himg : imageEntry (k, fv) = (k, optionFV fv.selectedValues false) := by
      simp [imageEntry, imageFV, hO]
    have hL2 : (pySplit '.' k.data).length ≤ 2 := by
      simpa [splitKey] using hL
    rcases pySplit_length_le_two '.' k.data hL2 with hfree | ⟨a, b, ha, hb, hdata⟩
    · -- bare key
      have hsk : splitKey k = [k] := splitKey_dotFree k hfree
      have hparse : parse_simple_filter k fv true =
          some (.inF [(k, fv.selectedValues)]) := by
        simp [parse_simple_filter, parse_filter_value, hO, hT]
      have hstep : encodeStep true acc (k, fv) =
          (acc.1 ++ [GqlF.inF [(k, fv.selectedValues)]], acc.2) := by
        simp [encodeStep, hsk, hna, hparse]
      rw [hstep]
      constructor
      · refine ⟨?_, hacc.2⟩
        intro c hc
        rcases List.mem_append.mp hc with h | h
        · exact hacc.1 c h
        · rw [List.mem_singleton.mp h]
          exact GoodChild.inSingle k fv.selectedValues
      · rw [himg]
        have hce : childEntries (GqlF.inF [(k, fv.selectedValues)]) =
            [(k, optionFV fv.selectedValues false)] := by
          simp [childEntries]
        simp only [accConds, List.map_append, List.flatten_append, List.append_assoc,
          List.map_cons, List.map_nil, List.flatten_cons, List.flatten_nil, hce,
          List.singleton_append, List.append_nil, List.nil_append]
        exact List.Perm.append_left _ (List.perm_append_singleton ..).symm
    · -- single-dot key: k.data = a ++ '.' :: b
      have hsk : splitKey k = [String.mk a, String.mk b] := by
        simp [splitKey, hdata, pySplit_two '.' a b ha hb]
      have hkeq : String.mk a ++ "." ++ String.mk b = k := by
        refine string_eq_of_data_eq _ _ ?_
        rw [string_data_dot_append, hdata]
      have hparse : parse_simple_filter (String.mk b) fv true =
          some (.inF [(String.mk b, fv.selectedValues)]) := by
        simp [parse_simple_filter, parse_filter_value, hO, hT]
      have hstep : encodeStep true acc (k, fv) =
          (acc.1, dictAppend acc.2 (String.mk a)
            (GqlF.inF [(String.mk b, fv.selectedValues)])) := by
        simp [encodeStep, hsk, hna, hparse]
      rw [hstep]
      constructor
      · refine ⟨hacc.1, ?_⟩
        intro pc hpc c hc
        rcases dictAppend_mem acc.2 (String.mk a)
            (GqlF.inF [(String.mk b, fv.selectedValues)]) pc hpc c hc with
          ⟨pc0, hpc0, hc0⟩ | hc0
        · exact hacc.2 pc0 hpc0 c hc0
        · exact ⟨String.mk b, fv.selectedValues, hc0⟩
      · have hne2 : nestedEntry (String.mk a) (GqlF.inF [(String.mk b, fv.selectedValues)]) =
            [imageEntry (k, fv)] := by
          simp [nestedEntry, himg, hkeq]
        have hperm := nested_flatten_dictAppend mode (String.mk a) hm
          (GqlF.inF [(String.mk b, fv.selectedValues)]) acc.2
        rw [hne2] at hperm
        simp only [accConds, List.map_append, List.flatten_append]
        rw [List.append_assoc]
        exact List.Perm.append_left _ hperm
  · -- Range entry with exactly one bound, bare key
    have hna : ¬ fv.type = FILTER_TYPE.ANCHORED := by
      rw [hR]; decide
    have hnotOpt : ¬ fv.type = FILTER_TYPE.OPTION := by
      rw [hR]; decide
    have hsk : splitKey k = [k] := splitKey_dotFree k hfree
    rcases hbounds with ⟨hsome, hupper⟩ | ⟨hlower, hsome⟩
    · obtain ⟨l, hl⟩ := Option.isSome_iff_exists.mp hsome
      have hparse : parse_simple_filter k fv true = some (.gteF k l) := by
        simp [parse_simple_filter, parse_filter_value, hnotOpt, hR, hl, hupper,
          show ¬ FILTER_TYPE.RANGE = FILTER_TYPE.OPTION by decide]
      have hstep : encodeStep true acc (k, fv) =
          (acc.1 ++ [GqlF.gteF k l], acc.2) := by
        simp [encodeStep, hsk, hna, hparse]
      have himg : imageEntry (k, fv) = (k, rangeFV (some l) none) := by
        simp [imageEntry, imageFV, hnotOpt, hl, hupper]
      rw [hstep]
      constructor
      · refine ⟨?_, hacc.2⟩
        intro c hc
        rcases List.mem_append.mp hc with h | h
        · exact hacc.1 c h
        · rw [List.mem_singleton.mp h]
          exact GoodChild.gteG k l
      · rw [himg]
        have hce : childEntries (GqlF.gteF k l) = [(k, rangeFV (some l) none)] := by
          simp [childEntries]
        simp only [accConds, List.map_append, List.flatten_append, List.append_assoc,
          List.map_cons, List.map_nil, List.flatten_cons, List.flatten_nil, hce,
          List.singleton_append, List.append_nil, List.nil_append]
        exact List.Perm.append_left _ (List.perm_append_singleton ..).symm
    · obtain ⟨u, hu⟩ := Option.isSome_iff_exists.mp hsome
      have hparse : parse_simple_filter k fv true = some (.lteF k u) := by
        simp [parse_simple_filter, parse_filter_value, hnotOpt, hR, hu, hlower,
          show ¬ FILTER_TYPE.RANGE = FILTER_TYPE.OPTION by decide]
      have hstep : encodeStep true acc (k, fv) =
          (acc.1 ++ [GqlF.lteF k u], acc.2) := by
        simp [encodeStep, hsk, hna, hparse]
      have himg : imageEntry (k, fv) = (k, rangeFV none (some u)) := by
        simp [imageEntry, imageFV, hnotOpt, hu, hlower]
      rw [hstep]
      constructor
      · refine ⟨?_, hacc.2⟩
        intro c hc
        rcases List.mem_append.mp hc with h | h
        · exact hacc.1 c h
        · rw [List.mem_singleton.mp h]
          exact GoodChild.lteG k u
      · rw [himg]
        have hce : childEntries (GqlF.lteF k u) = [(k, rangeFV none (some u))] := by
          simp [childEntries]
        simp only [accConds, List.map_append, List.flatten_append, List.append_assoc,
          List.map_cons, List.map_nil, List.flatten_cons, List.flatten_nil, hce,
          List.singleton_append, List.append_nil, List.nil_append]
        exact List.Perm.append_left _ (List.perm_append_singleton ..).symm

theorem encodeFold_spec (mode : String) (hm : mode = "AND" ∨ mode = "OR") :
    ∀ (kvs : List (String × FilterValue)) (acc : List GqlF × List (String × List GqlF)),
    (∀ kv ∈ kvs, GoodEntry kv) → AccGood acc →
    AccGood (kvs.foldl (encodeStep true) acc) ∧
    List.Perm (((accConds mode (kvs.foldl (encodeStep true) acc)).map childEntries).flatten)
      ((((accConds mode acc).map childEntries).flatten) ++ kvs.map imageEntry) := by
  intro kvs
  induction kvs with
  | nil =>
    intro acc _ hacc
    exact ⟨hacc, by simp⟩
  | cons kv rest ih =>
    intro acc hkv hacc
    have hstep := encodeStep_spec mode hm acc kv (hkv kv (List.mem_cons_self ..)) hacc
    have hrest := ih (encodeStep true acc kv)
      (fun x hx => hkv x (List.mem_cons_of_mem _ hx)) hstep.1
    refine ⟨by simpa using hrest.1, ?_⟩
    simp only [List.foldl_cons, List.map_cons]
    refine hrest.2.trans ?_
    refine (List.Perm.append_right _ hstep.2).trans ?_
    rw [List.append_assoc, List.singleton_append]

theorem accConds_good (mode : String) (hm : mode = "AND" ∨ mode = "OR")
    (acc : List GqlF × List (String × List GqlF)) (hacc : AccGood acc) :
    ∀ c ∈ accConds mode acc, GoodChild c := by
  intro c hc
  rcases List.mem_append.mp hc with h | h
  · exact hacc.1 c h
  · obtain ⟨pc, hpc, rfl⟩ := List.mem_map.mp h
    exact GoodChild.nestedG pc.1 mode pc.2 hm (hacc.2 pc hpc)

/-- C1 amended: for every STANDARD FilterState with a nonempty,
duplicate-free values map whose entries are Option FilterValues with truthy
selections (bare or single-dot keys) or Range FilterValues with exactly one
bound (bare keys), and whose combine mode is AND or OR,
`getFilterState(getGQLFilter(s))` (with a schema handler) reproduces
identical selected values and bounds.  Ranges with both bounds present are
excluded: they encode to an inner `{AND: [GTE, LTE]}` child that the
decoder ignores (see the counterexample). -/
theorem C1_amended_roundtrip (st : FilterState)
    (_h1 : st.type = FILTER_TYPE.STANDARD)
    (h2 : st.combineMode = "AND" ∨ st.combineMode = "OR")
    (h3 : st.value ≠ [])
    (h4 : (st.value.map Prod.fst).Nodup)
    (h5 : ∀ kv ∈ st.value, GoodEntry kv) :
    optionRangeRoundTrip true st := by
  clear _h1
  obtain ⟨hgood, hperm⟩ := encodeFold_spec st.combineMode h2 st.value ([], []) h5
    ⟨by simp, by simp⟩
  have hinit : ((accConds st.combineMode
      (([] : List GqlF), ([] : List (String × List GqlF)))).map childEntries).flatten =
      ([] : List (String × FilterValue)) := by
    simp [accConds]
  rw [hinit, List.nil_append] at hperm
  have hentries : List.Perm
      (((encodeConds true st.combineMode st.value).map childEntries).flatten)
      (st.value.map imageEntry) := by
    rw [encodeConds_eq_accConds]
    exact hperm
  have hcnil : encodeConds true st.combineMode st.value ≠ [] := by
    intro he
    rw [he] at hentries
    simp only [List.map_nil, List.flatten_nil] at hentries
    have : st.value.map imageEntry = [] := hentries.symm.eq_nil
    exact h3 (by simpa using this)
  have henc : getGQLFilter true (some st) =
      some (.comb st.combineMode (encodeConds true st.combineMode st.value)) := by
    simp only [getGQLFilter]
    rw [if_neg h3, if_neg hcnil]
  have hcgood : ∀ c ∈ encodeConds true st.combineMode st.value, GoodChild c := by
    rw [encodeConds_eq_accConds]
    exact accConds_good st.combineMode h2 _ hgood
  have hdec : getFilterState (some (.comb st.combineMode
      (encodeConds true st.combineMode st.value))) =
      some { type := FILTER_TYPE.STANDARD, combineMode := st.combineMode,
             value := (encodeConds true st.combineMode st.value).foldl decodeChild [] } := by
    rcases h2 with h | h <;> rw [h] at hcnil ⊢ <;> simp [getFilterState, hcnil]
  have hkeyseq : (st.value.map imageEntry).map Prod.fst = st.value.map Prod.fst := by
    simp [List.map_map, imageEntry, Function.comp_def]
  have hnodupflat :
      ((((encodeConds true st.combineMode st.value).map childEntries).flatten).map
        Prod.fst).Nodup := by
    refine ((hentries.map Prod.fst).nodup_iff).mpr ?_
    rw [hkeyseq]
    exact h4
  have hlookup := decodeFold_lookup (encodeConds true st.combineMode st.value) []
    hcgood (by simpa using hnodupflat)
  have hfinal : ∀ k fv, dictLookup st.value k = some fv →
      dictLookup ((encodeConds true st.combineMode st.value).foldl decodeChild []) k =
        some (imageFV fv) := by
    intro k fv hlk
    have hmem : (k, fv) ∈ st.value := dictLookup_mem _ _ _ hlk
    have hmlookup : dictLookup (st.value.map imageEntry) k = some (imageFV fv) :=
      mem_dictLookup _ _ _ (by rw [hkeyseq]; exact h4)
        (List.mem_map.mpr ⟨(k, fv), hmem, rfl⟩)
    rw [hlookup k, List.nil_append,
      dictLookup_perm _ _ k hentries hnodupflat]
    exact hmlookup
  refine ⟨{ type := FILTER_TYPE.STANDARD, combineMode := st.combineMode,
            value := (encodeConds true st.combineMode st.value).foldl decodeChild [] },
    by rw [henc]; exact hdec, ?_, ?_⟩
  · intro k fv hlk hty
    exact ⟨imageFV fv, hfinal k fv hlk, by simp [imageFV, hty, optionFV]⟩
  · intro k fv hlk hty
    refine ⟨imageFV fv, hfinal k fv hlk, ?_, ?_⟩ <;>
      simp [imageFV, hty, rangeFV, optionFV,
        show ¬ FILTER_TYPE.RANGE = FILTER_TYPE.OPTION by decide]

/-- The state decode actually produces for the claim's input: only the
Option key survives. -/
def c1DecodedState : FilterState :=
  { type := "STANDARD", combineMode := "AND",
    value := [("race", optionFV (Val.list [Val.str "Asian"]) false)] }

/-- C1 counterexample: the round trip fails at the claim's own state (the
both-bounds Range encodes to an inner `{AND: [GTE, LTE]}` child that the
decoder ignores, so the bounds are lost), with or without a schema handler;
it also fails for a single-bound Range under a nested key (GTE/LTE inside a
nested block are not decoded) and for the empty STANDARD state (decode of
the null encoding yields no state at all). -/
theorem C1_counterexample :
    ¬ optionRangeRoundTrip true c1State ∧ ¬ optionRangeRoundTrip false c1State ∧
    ¬ optionRangeRoundTrip true c1NestedRangeState ∧
    ¬ optionRangeRoundTrip true c1EmptyState := by
  refine ⟨?_, ?_, ?_, ?_⟩
  · rintro ⟨st2, hdec, -, hrange⟩
    rw [show getFilterState (getGQLFilter true (some c1State)) = some c1DecodedState by
      decide] at hdec
    obtain rfl := Option.some.inj hdec
    obtain ⟨fv2, hl2, -, -⟩ := hrange "age_at_censor_status"
      (rangeFV (some (Val.int 0)) (some (Val.int 18))) (by decide) (by decide)
    rw [show dictLookup c1DecodedState.value "age_at_censor_status" = none by
      decide] at hl2
    exact Option.noConfusion hl2
  · rintro ⟨st2, hdec, -, hrange⟩
    rw [show getFilterState (getGQLFilter false (some c1State)) = some c1DecodedState by
      decide] at hdec
    obtain rfl := Option.some.inj hdec
    obtain ⟨fv2, hl2, -, -⟩ := hrange "age_at_censor_status"
      (rangeFV (some (Val.int 0)) (some (Val.int 18))) (by decide) (by decide)
    rw [show dictLookup c1DecodedState.value "age_at_censor_status" = none by
      decide] at hl2
    exact Option.noConfusion hl2
  · rintro ⟨st2, hdec, -, hrange⟩
    rw [show getFilterState (getGQLFilter true (some c1NestedRangeState)) =
      some c1DecodedState by decide] at hdec
    obtain rfl := Option.some.inj hdec
    obtain ⟨fv2, hl2, -, -⟩ := hrange "tumor_assessments.age_at_tumor_assessment"
      (rangeFV (some (Val.int 5)) none) (by decide) (by decide)
    rw [show dictLookup c1DecodedState.value
      "tumor_assessments.age_at_tumor_assessment" = none by decide] at hl2
    exact Option.noConfusion hl2
  · rintro ⟨st2, hdec, -, -⟩
    rw [show getFilterState (getGQLFilter true (some c1EmptyState)) = none by
      decide] at hdec
    exact Option.noConfusion hdec

/-- A concrete state in the amended domain: two Options (one nested) and a
lower-bound-only Range. -/
def c1WitnessState : FilterState :=
  { type := "STANDARD", combineMode := "AND",
    value := [("consortium", optionFV (Val.list [Val.str "INRG"]) false),
              ("tumor_assessments.tumor_site", optionFV (Val.list [Val.str "Lung"]) false),
              ("age_at_censor_status", rangeFV (some (Val.int 0)) none)] }

/-- Witness for the amended C1 at a concrete state. -/
theorem C1_amended_roundtrip_witness :
    (c1WitnessState.type = FILTER_TYPE.STANDARD ∧
     (c1WitnessState.combineMode = "AND" ∨ c1WitnessState.combineMode = "OR") ∧
     c1WitnessState.value ≠ [] ∧
     (c1WitnessState.value.map Prod.fst).Nodup ∧
     (∀ kv ∈ c1WitnessState.value, GoodEntry kv)) ∧
    optionRangeRoundTrip true c1WitnessState :=
  ⟨by decide,
    C1_amended_roundtrip c1WitnessState (by decide) (by decide) (by decide)
      (by decide) (by decide)⟩

/-! ### Claim C4: rule-based conflict resolution scoring
(`src/backend/llm/disambiguator.py`, `_rule_based_resolve_term`).
Float score arithmetic is embedded over exact rationals. -/

/-- `FieldType` from core/models.py. -/
inductive FieldType where
  | ENUMERATION
  | STRING
  | NUMBER
  | BOOLEAN
  | DATE
deriving DecidableEq, Repr

/-- `CatalogField` from core/models.py. -/
structure CatalogField where
  path : String
  field_type : FieldType
  enum_values : Option (List String)
  description : Option String
  searchable_terms : List String
deriving DecidableEq, Repr

/-- `FieldCandidate` from core/models.py, with the float score as an exact
rational. -/
structure FieldCandidate where
  term : String
  field : CatalogField
  match_score : ℚ
  match_reason : String
deriving DecidableEq, Repr

/-- `ResolvedField` from core/models.py. -/
structure ResolvedField where
  term : String
  field_path : String
  field_type : FieldType
  value : Val
  operator : String
  confidence : ℚ
deriving DecidableEq

/-- ASCII model of Python `str.lower()` (the catalog's paths, terms and enum
values are ASCII). -/
def pyLowerChar (c : Char) : Char :=
  if 'A' ≤ c ∧ c ≤ 'Z' then Char.ofNat (c.toNat + 32) else c

/-- Python `str.lower()`. -/
def pyLower (s : String) : String := String.mk (s.data.map pyLowerChar)

/-- Does `needle` occur at the start of `hay`? -/
def startMatch : List Char → List Char → Bool
  | [], _ => true
  | _ :: _, [] => false
  | a :: as, b :: bs => a == b && startMatch as bs

/-- Does `needle` occur contiguously anywhere in `hay`? -/
def subOccurs (needle : List Char) : List Char → Bool
  | [] => needle.isEmpty
  | c :: rest => startMatch needle (c :: rest) || subOccurs needle rest

/-- Python substring test `needle in hay`. -/
def strIn (needle hay : String) : Bool := subOccurs needle.data hay.data

/-- Python truthiness of an optional string (`if field.description:`). -/
def optStrTruthy : Option String → Bool
  | none => false
  | some s => s != ""

/-- Python truthiness of an optional list (`if field.enum_values:`). -/
def optListTruthy : Option (List String) → Bool
  | none => false
  | some l => !l.isEmpty

/-- `_default_operator` from disambiguator.py. -/
def default_operator (field : CatalogField) : String :=
  if field.field_type = FieldType.ENUMERATION then "eq"
  else if field.field_type = FieldType.STRING then "contains"
  else if field.field_type = FieldType.NUMBER ∨ field.field_type = FieldType.DATE then "eq"
  else if field.field_type = FieldType.BOOLEAN then "eq"
  else "contains"

/-- `_extract_enum_value` from disambiguator.py: exact case-insensitive
match, else bidirectional substring match, else the first enum value. -/
def extract_enum_value (term : String) (field : CatalogField) : String :=
  match field.enum_values with
  | none => term
  | some evs =>
    if evs.isEmpty then term
    else
      let term_lower := pyLower term
      match evs.find? (fun ev => pyLower ev == term_lower) with
      | some ev => ev
      | none =>
        match evs.find? (fun ev => strIn term_lower (pyLower ev) ||
            strIn (pyLower ev) term_lower) with
        | some ev => ev
        | none => evs.headD term

/-- The per-candidate score of the multiple-candidates branch of
`_rule_based_resolve_term`: match score, +0.10 if the lowered term occurs in
the lowered field path, +0.05 for enumeration fields, +0.02 for a non-empty
description, +0.15 if the lowered term occurs inside some enum value
(one direction only in the code). -/
def scoreCandidate (term : String) (c : FieldCandidate) : ℚ :=
  c.match_score
  + (if strIn (pyLower term) (pyLower c.field.path) then 1/10 else 0)
  + (if c.field.field_type = FieldType.ENUMERATION then 1/20 else 0)
  + (if optStrTruthy c.field.description then 1/50 else 0)
  + (if optListTruthy c.field.enum_values ∧
        (c.field.enum_values.getD []).any (fun ev => strIn (pyLower term) (pyLower ev))
     then 3/20 else 0)

/-- Python's `list.sort(key=..., reverse=True)`: a stable descending sort.
`List.insertionSort` with the ≥-by-key relation is stable and descending, so
it computes the same list. -/
def sortByScoreDesc (scored : List (FieldCandidate × ℚ)) : List (FieldCandidate × ℚ) :=
  scored.insertionSort (fun a b => b.2 ≤ a.2)

/-- `ResolvedField(...)` construction: pydantic validates
`confidence: float = Field(0.0, ge=0.0, le=1.0)` (core/models.py) and raises
a ValidationError outside the bound; the raise is modelled as `none`. -/
def mkResolvedField (term field_path : String) (field_type : FieldType) (value : Val)
    (operator : String) (confidence : ℚ) : Option ResolvedField :=
  if 0 ≤ confidence ∧ confidence ≤ 1 then
    some { term := term, field_path := field_path, field_type := field_type,
           value := value, operator := operator, confidence := confidence }
  else none

/-- `_rule_based_resolve_term`: a single candidate is accepted unchanged;
with several candidates the heuristic scores are computed, the list is
sorted descending and the first (best) candidate is resolved with
confidence `best_score * 0.9` — which `ResolvedField`'s pydantic bound then
validates: a boosted confidence above 1.0 raises (modelled as `none`), it is
never capped.  The empty-candidate case cannot occur in the source (groups
are built nonempty); it also returns `none` here. -/
def rule_based_resolve_term (term : String) (candidates : List FieldCandidate) :
    Option ResolvedField :=
  match candidates with
  | [] => none
  | [c] =>
      mkResolvedField term c.field.path c.field.field_type (Val.str term)
        (default_operator c.field) c.match_score
  | c1 :: c2 :: rest =>
      let cands := c1 :: c2 :: rest
      let scored := cands.map (fun c => (c, scoreCandidate term c))
      match sortByScoreDesc scored with
      | [] => none
      | best :: _ =>
        mkResolvedField term best.1.field.path best.1.field.field_type
          (if best.1.field.field_type = FieldType.ENUMERATION then
              Val.str (extract_enum_value term best.1.field)
            else Val.str term)
          (default_operator best.1.field) (best.2 * (9/10))

/-- Modelled from the claim's wording, for comparison with the code's
`scoreCandidate`: the claim awards the 0.15 enum-value bonus when term and
enum value match as substrings in either direction. -/
def specScoreCandidate (term : String) (c : FieldCandidate) : ℚ :=
  c.match_score
  + (if strIn (pyLower term) (pyLower c.field.path) then 1/10 else 0)
  + (if c.field.field_type = FieldType.ENUMERATION then 1/20 else 0)
  + (if optStrTruthy c.field.description then 1/50 else 0)
  + (if optListTruthy c.field.enum_values ∧
        (c.field.enum_values.getD []).any (fun ev => strIn (pyLower term) (pyLower ev) ||
          strIn (pyLower ev) (pyLower term))
     then 3/20 else 0)

/-- A non-enum candidate with a higher raw match score. -/
def c4CandA : FieldCandidate :=
  { term := "male patient",
    field := { path := "a", field_type := FieldType.STRING, enum_values := none,
               description := none, searchable_terms := [] },
    match_score := 3/5, match_reason := "" }

/-- An enum candidate whose enum value "male" is a substring of the term
(the direction the code does not check). -/
def c4CandB : FieldCandidate :=
  { term := "male patient",
    field := { path := "b", field_type := FieldType.ENUMERATION,
               enum_values := some ["male"], description := none, searchable_terms := [] },
    match_score := 1/2, match_reason := "" }

/-- C4 counterexample: under the claim's bidirectional formula candidate B
scores highest (0.7), but the code only checks `term in enum_value`, scores
B at 0.55, picks A and emits confidence 0.54 — not the claimed bestScore
times 0.9 = 0.63. -/
theorem C4_counterexample :
    specScoreCandidate "male patient" c4CandB >
      specScoreCandidate "male patient" c4CandA ∧
    rule_based_resolve_term "male patient" [c4CandA, c4CandB] =
      some { term := "male patient", field_path := "a",
             field_type := FieldType.STRING, value := Val.str "male patient",
             operator := "contains", confidence := 27/50 } ∧
    (27 : ℚ)/50 ≠ specScoreCandidate "male patient" c4CandB * (9/10) := by
  decide

instance : IsTotal (FieldCandidate × ℚ) (fun a b => b.2 ≤ a.2) :=
  ⟨fun a b => le_total b.2 a.2⟩

instance : IsTrans (FieldCandidate × ℚ) (fun a b => b.2 ≤ a.2) :=
  ⟨fun _ _ _ hab hbc => le_trans hbc hab⟩

/-- C4 amended: for a term with two or more candidates, the rule-based
resolver scores each candidate as matchScore + 0.10*[term substring of
path] + 0.05*[enum field] + 0.02*[has description] + 0.15*[term occurs
inside some enum value — one direction only], picks a candidate of maximal
score, and emits confidence bestScore * 0.9 if that lies within
ResolvedField's declared [0, 1] bound — otherwise pydantic raises a
ValidationError (modelled as `none`); the confidence is never capped. -/
theorem C4_amended_resolver (term : String) (c1 c2 : FieldCandidate)
    (rest : List FieldCandidate) :
    ∃ best ∈ c1 :: c2 :: rest,
      (∀ c ∈ c1 :: c2 :: rest, scoreCandidate term c ≤ scoreCandidate term best) ∧
      rule_based_resolve_term term (c1 :: c2 :: rest) =
        (if 0 ≤ scoreCandidate term best * (9/10) ∧ scoreCandidate term best * (9/10) ≤ 1 then
          some { term := term, field_path := best.field.path,
                 field_type := best.field.field_type,
                 value := if best.field.field_type = FieldType.ENUMERATION then
                     Val.str (extract_enum_value term best.field)
                   else Val.str term,
                 operator := default_operator best.field,
                 confidence := scoreCandidate term best * (9/10) }
        else none) := by
  have hsne : ((c1 :: c2 :: rest).map (fun c => (c, scoreCandidate term c))) ≠ [] := by
    simp
  obtain ⟨b, t, hsort⟩ : ∃ b t, sortByScoreDesc
      ((c1 :: c2 :: rest).map (fun c => (c, scoreCandidate term c))) = b :: t := by
    cases hs : sortByScoreDesc ((c1 :: c2 :: rest).map (fun c => (c, scoreCandidate term c))) with
    | nil =>
      exfalso
      have hp := List.perm_insertionSort (fun a b : FieldCandidate × ℚ => b.2 ≤ a.2)
        ((c1 :: c2 :: rest).map (fun c => (c, scoreCandidate term c)))
      rw [show sortByScoreDesc ((c1 :: c2 :: rest).map (fun c => (c, scoreCandidate term c))) =
        (((c1 :: c2 :: rest).map (fun c => (c, scoreCandidate term c))).insertionSort
          (fun a b => b.2 ≤ a.2)) from rfl] at hs
      rw [hs] at hp
      exact hsne hp.symm.eq_nil
    | cons b t => exact ⟨b, t, rfl⟩
  have hperm : List.Perm (b :: t)
      ((c1 :: c2 :: rest).map (fun c => (c, scoreCandidate term c))) := by
    rw [← hsort]
    exact List.perm_insertionSort _ _
  have hmem : b ∈ (c1 :: c2 :: rest).map (fun c => (c, scoreCandidate term c)) :=
    hperm.mem_iff.mp (List.mem_cons_self ..)
  have hsorted : List.Sorted (fun a b : FieldCandidate × ℚ => b.2 ≤ a.2) (b :: t) := by
    rw [← hsort]
    exact List.sorted_insertionSort _ _
  have hmax : ∀ x ∈ (c1 :: c2 :: rest).map (fun c => (c, scoreCandidate term c)),
      x.2 ≤ b.2 := by
    intro x hx
    rcases List.mem_cons.mp (hperm.symm.mem_iff.mp hx) with he | hx3
    · rw [he]
    · exact (List.sorted_cons.mp hsorted).1 x hx3
  obtain ⟨c, hcmem, hbeq⟩ := List.mem_map.mp hmem
  refine ⟨c, hcmem, ?_, ?_⟩
  · intro x hx
    have hle := hmax (x, scoreCandidate term x) (List.mem_map.mpr ⟨x, hx, rfl⟩)
    rw [← hbeq] at hle
    exact hle
  · rw [show rule_based_resolve_term term (c1 :: c2 :: rest) =
      (match sortByScoreDesc ((c1 :: c2 :: rest).map (fun c => (c, scoreCandidate term c))) with
       | [] => none
       | best :: _ =>
         mkResolvedField term best.1.field.path best.1.field.field_type
           (if best.1.field.field_type = FieldType.ENUMERATION then
               Val.str (extract_enum_value term best.1.field)
             else Val.str term)
           (default_operator best.1.field) (best.2 * (9/10))) from rfl]
    rw [hsort, ← hbeq]
    rfl

/-- An enum candidate that collects every boost on top of a full 1.0 match
score: 1.0 + 0.1 + 0.05 + 0.02 + 0.15 = 1.32, so the emitted confidence
would be 1.188 > 1 and pydantic raises. -/
def c4HighCand : FieldCandidate :=
  { term := "sex",
    field := { path := "demographics.sex", field_type := FieldType.ENUMERATION,
               enum_values := some ["sex unknown"],
               description := some "Sex of the subject", searchable_terms := [] },
    match_score := 1, match_reason := "" }

def c4LowCand : FieldCandidate :=
  { term := "sex",
    field := { path := "a", field_type := FieldType.STRING, enum_values := none,
               description := none, searchable_terms := [] },
    match_score := 0, match_reason := "" }

/-- Witness for the amended C4 at a concrete two-candidate conflict, plus
the reachable over-bound case: a boosted score of 1.32 gives confidence
1.188 > 1, which `ResolvedField`'s pydantic bound rejects, so the resolver
fails rather than capping. -/
theorem C4_amended_resolver_witness :
    (∃ best ∈ c4CandA :: c4CandB :: [],
      (∀ c ∈ c4CandA :: c4CandB :: [],
        scoreCandidate "male patient" c ≤ scoreCandidate "male patient" best) ∧
      rule_based_resolve_term "male patient" (c4CandA :: c4CandB :: []) =
        (if 0 ≤ scoreCandidate "male patient" best * (9/10) ∧
            scoreCandidate "male patient" best * (9/10) ≤ 1 then
          some { term := "male patient", field_path := best.field.path,
                 field_type := best.field.field_type,
                 value := if best.field.field_type = FieldType.ENUMERATION then
                     Val.str (extract_enum_value "male patient" best.field)
                   else Val.str "male patient",
                 operator := default_operator best.field,
                 confidence := scoreCandidate "male patient" best * (9/10) }
        else none)) ∧
    scoreCandidate "sex" c4HighCand * (9/10) = 297/250 ∧
    rule_based_resolve_term "sex" [c4HighCand, c4LowCand] = none :=
  ⟨C4_amended_resolver "male patient" c4CandA c4CandB [], by decide, by decide⟩

/-! ### Claims C5 and C6: filter composition
(`src/backend/graphql/composer.py` `_create_filter`/`_convert_filter_value`
and `src/backend/graphql/builder.py` `_build_subject_filter`/
`_build_filter_condition`). -/

/-- `GraphQLFilter` from core/models.py. -/
structure GraphQLFilter where
  field : String
  operator : String
  value : Val
deriving DecidableEq

/-- Python `str.strip()` on the whitespace set of `str.split`/`strip`. -/
def isPyWs (c : Char) : Bool :=
  c = ' ' ∨ c = '\t' ∨ c = '\n' ∨ c = '\r' ∨ c = '\x0b' ∨ c = '\x0c'

/-- Python `str.strip()`. -/
def pyStrip (s : String) : String :=
  String.mk (((s.data.dropWhile isPyWs).reverse.dropWhile isPyWs).reverse)

/-- Python `repr` of one of our scalar values, used only inside `str(list)`. -/
def pyReprVal : Val → String
  | .str s => "'" ++ s ++ "'"
  | .int n => toString n
  | .float q => toString q.num ++ "/" ++ toString q.den
  | .bool b => if b then "True" else "False"
  | .list _ => "[...]"

/-- Python `str(value)` on our value domain (floats print the exact
rational; no claim under check reaches that case). -/
def pyStrOfVal : Val → String
  | .str s => s
  | .int n => toString n
  | .float q => toString q.num ++ "/" ++ toString q.den
  | .bool b => if b then "True" else "False"
  | .list vs => "[" ++ String.intercalate ", " (vs.map pyReprVal) ++ "]"

/-- Python `value.replace(".", "").replace("-", "").isdigit()`: every
character is a digit after dots and dashes are removed, and at least one
character remains. -/
def looksNumeric (s : String) : Bool :=
  let rest := s.data.filter (fun c => !(c = '.' ∨ c = '-'))
  !rest.isEmpty && rest.all Char.isDigit

/-- Model of Python `int(s)`: valid for an optional sign followed by
digits. -/
def pyIntOfString (s : String) : Option Int :=
  let l := s.data
  let (neg, ds) := match l with
    | '-' :: rest => (true, rest)
    | '+' :: rest => (false, rest)
    | _ => (false, l)
  if ds.isEmpty ∨ !ds.all Char.isDigit then none
  else
    let n : Nat := ds.foldl (fun acc c => acc * 10 + (c.toNat - '0'.toNat)) 0
    some (if neg then -(n : Int) else (n : Int))

/-- Model of Python `float(s)` on the dot/dash/digit strings guarded by
`looksNumeric`: an optional sign, digits, an optional single dot and
fraction digits.  Exact decimal value as a rational. -/
def pyFloatOfString (s : String) : Option ℚ :=
  let l := s.data
  let (neg, ds) := match l with
    | '-' :: rest => (true, rest)
    | '+' :: rest => (false, rest)
    | _ => (false, l)
  match ds.splitOnP (· = '.') with
  | [ip, fp] =>
    if (ip.isEmpty ∧ fp.isEmpty) ∨ !ip.all Char.isDigit ∨ !fp.all Char.isDigit then none
    else
      let ipn : Nat := ip.foldl (fun acc c => acc * 10 + (c.toNat - '0'.toNat)) 0
      let fpn : Nat := fp.foldl (fun acc c => acc * 10 + (c.toNat - '0'.toNat)) 0
      let q : ℚ := (ipn : ℚ) + (fpn : ℚ) / ((10 : ℚ) ^ fp.length)
      some (if neg then -q else q)
  | [ip] =>
    if ip.isEmpty ∨ !ip.all Char.isDigit then none
    else
      let ipn : Nat := ip.foldl (fun acc c => acc * 10 + (c.toNat - '0'.toNat)) 0
      some (if neg then -(ipn : ℚ) else (ipn : ℚ))
  | _ => none

/-- The number branch of `_convert_filter_value` on a numeric-looking
string: `float(value) if "." in value else int(value)`, falling back to
`str(value)` when the conversion raises (e.g. `int("1-2")`).  Floats are
exact rationals here. -/
def pyNumOfString (s : String) : Val :=
  if subOccurs ['.'] s.data then
    match pyFloatOfString s with
    | some q => Val.float q
    | none => Val.str s
  else
    match pyIntOfString s with
    | some n => Val.int n
    | none => Val.str s

/-- Is the value a Python `str`? (`isinstance(value, str)`). -/
def isStrVal : Val → Bool
  | .str _ => true
  | _ => false

/-- `_convert_filter_value` from composer.py: coerce the resolved value by
field type and operator. -/
def convert_filter_value (rf : ResolvedField) : Val :=
  match rf.field_type with
  | .ENUMERATION =>
    if rf.operator = "in" ∧ isStrVal rf.value then Val.list [rf.value]
    else if rf.operator = "eq" then Val.str (pyStrOfVal rf.value)
    else rf.value
  | .STRING =>
    if rf.operator = "contains" then Val.str (pyStrip (pyStrOfVal rf.value))
    else if rf.operator = "in" ∧ isStrVal rf.value then Val.list [rf.value]
    else Val.str (pyStrOfVal rf.value)
  | .NUMBER =>
    match rf.value with
    | .str s => if looksNumeric s then pyNumOfString s else Val.str s
    | .int n => Val.int n
    | .float q => Val.float q
    | .bool b => Val.bool b
    | v => Val.str (pyStrOfVal v)
  | .BOOLEAN =>
    match rf.value with
    | .bool b => Val.bool b
    | .str s => Val.bool (["true", "yes", "1", "y"].contains (pyLower s))
    | v => Val.bool v.truthy
  | .DATE => Val.str (pyStrOfVal rf.value)

/-- `_validate_filter_value` from composer.py.  The NUMBER branch's
`try: float(value)` always succeeds or falls back to `len(value.strip()) > 0`;
a NUMBER field with a list value falls off the `elif` chain and returns
`None` (falsy). -/
def validate_filter_value (rf : ResolvedField) (value : Val) : Bool :=
  if (match value with | .str s => pyStrip s == "" | _ => false) then false
  else
    match rf.field_type with
    | .ENUMERATION => true
    | .NUMBER =>
      match value with
      | .int _ => true
      | .float _ => true
      | .bool _ => true
      | .str s => if (pyFloatOfString s).isSome then true else (pyStrip s).length > 0
      | .list _ => false
    | .BOOLEAN =>
      match value with
      | .bool _ => true
      | .str _ => true
      | .int _ => true
      | _ => false
    | _ => true

/-- `_create_filter` from composer.py: convert, validate, and build a
`GraphQLFilter`, or drop the field (`None`). -/
def create_filter (rf : ResolvedField) : Option GraphQLFilter :=
  let value := convert_filter_value rf
  if validate_filter_value rf value then
    some { field := rf.field_path, operator := rf.operator, value := value }
  else none

/-- The filter list `compose_filter` builds before handing over to the
query builder (dropped fields are skipped, not errors). -/
def compose_filters (resolved : List ResolvedField) : List GraphQLFilter :=
  resolved.filterMap create_filter

/-- `_build_filter_condition` from builder.py: `eq`/`in` (and unknown
operators) produce `{"IN": {field: [value]}}` with the value list-wrapped;
`contains`/`gte`/`lte`/`gt`/`lt` map to their operators. -/
def build_filter_condition (field : String) (operator : String) (value : Val) : GqlF :=
  if operator = "eq" ∨ operator = "in" then
    match value with
    | .list vs => .inF [(field, .list vs)]
    | v => .inF [(field, .list [v])]
  else if operator = "contains" then .containsF field value
  else if operator = "gte" then .gteF field value
  else if operator = "lte" then .lteF field value
  else if operator = "gt" then .gtF field value
  else if operator = "lt" then .ltF field value
  else
    match value with
    | .list vs => .inF [(field, .list vs)]
    | v => .inF [(field, .list [v])]

/-- Python `field_path.split(".", 1)` (maxsplit 1), on the characters. -/
def pySplitOnce (sep : Char) : List Char → List Char × List Char
  | [] => ([], [])
  | c :: rest =>
    if c = sep then ([], rest)
    else
      let r := pySplitOnce sep rest
      (c :: r.1, r.2)

/-- One iteration of the filter loop in `_build_subject_filter`: dotted
field paths are grouped by their entity prefix, direct fields accumulate in
order. -/
def subjectStep (acc : List GqlF × List (String × List GqlF)) (f : GraphQLFilter) :
    List GqlF × List (String × List GqlF) :=
  if f.field.data.contains '.' then
    let parts := pySplitOnce '.' f.field.data
    (acc.1, dictAppend acc.2 (String.mk parts.1)
      (build_filter_condition (String.mk parts.2) f.operator f.value))
  else
    (acc.1 ++ [build_filter_condition f.field f.operator f.value], acc.2)

/-- The `final_conditions` list of `_build_subject_filter`: direct
conditions followed by one `{"nested": {"path": p, "AND": [...]}}` node per
entity. -/
def subjectConditions (filters : List GraphQLFilter) : List GqlF :=
  let acc := filters.foldl subjectStep ([], [])
  acc.1 ++ acc.2.map (fun pc => GqlF.nested pc.1 "AND" pc.2)

/-- `_build_subject_filter` from builder.py: no conditions → `{}` (embedded
as `none`); one condition → returned unwrapped; several → `{"AND": [...]}`. -/
def build_subject_filter (filters : List GraphQLFilter) : Option GqlF :=
  match subjectConditions filters with
  | [] => none
  | [c] => some c
  | c1 :: c2 :: rest => some (.comb "AND" (c1 :: c2 :: rest))

/-- The resolved field of the C5 scenario. -/
def c5Resolved : ResolvedField :=
  { term := "male", field_path := "sex", field_type := FieldType.ENUMERATION,
    value := Val.str "Male", operator := "eq", confidence := 9/10 }

/-- C5: composing the single resolved field
`{fieldPath: "sex", fieldType: ENUM, value: "Male", operator: "eq"}`
produces `{IN: {sex: ["Male"]}}` — list-wrapped IN, not a bare equality
condition, and not wrapped in a combinator. -/
theorem C5_single_enum_in_wrapped :
    build_subject_filter (compose_filters [c5Resolved]) =
      some (.inF [("sex", Val.list [Val.str "Male"])]) := by
  decide

/-- Lookup of a group's accumulated list (`nested_conditions[path]`,
defaulting to empty). -/
def groupLookup {α : Type} (d : List (String × List α)) (k : String) : List α :=
  ((d.find? (fun kv => kv.1 == k)).map (·.2)).getD []

theorem groupLookup_dictAppend {α : Type} :
    ∀ (d : List (String × List α)) (k : String) (x : α) (e : String),
    groupLookup (dictAppend d k x) e =
      if e = k then groupLookup d e ++ [x] else groupLookup d e := by
  intro d
  induction d with
  | nil =>
    intro k x e
    by_cases he : e = k
    · subst he
      simp [dictAppend, groupLookup, List.find?]
    · have hb : (k == e) = false := by simpa using fun h => he h.symm
      simp [dictAppend, groupLookup, List.find?, hb, he]
  | cons g rest ih =>
    intro k x e
    obtain ⟨p, xs⟩ := g
    by_cases hp : p = k
    · subst hp
      by_cases he : e = p
      · subst he
        simp [dictAppend, groupLookup, List.find?]
      · have hb : (p == e) = false := by simpa using fun h => he h.symm
        simp [dictAppend, groupLookup, List.find?, hb, he]
    · by_cases he : e = p
      · subst he
        simp [dictAppend, hp, groupLookup, List.find?]
      · have hb : (p == e) = false := by simpa using fun h => he h.symm
        have ih2 := ih k x e
        simp only [dictAppend, if_neg hp, groupLookup, List.find?, hb] at ih2 ⊢
        exact ih2

theorem keys_dictAppend {α : Type} :
    ∀ (d : List (String × List α)) (k : String) (x : α),
    (dictAppend d k x).map Prod.fst =
      if k ∈ d.map Prod.fst then d.map Prod.fst else d.map Prod.fst ++ [k] := by
  intro d
  induction d with
  | nil => intro k x; simp [dictAppend]
  | cons g rest ih =>
    intro k x
    obtain ⟨p, xs⟩ := g
    by_cases hp : p = k
    · subst hp
      simp [dictAppend]
    · have hne : ¬ k = p := fun h => hp h.symm
      by_cases hmem : k ∈ rest.map Prod.fst
      · simp [dictAppend, hp, ih, hmem, hne]
      · simp [dictAppend, hp, ih, hmem, hne]

/-- Is the condition a `{"nested": ...}` node? -/
def isNestedNode : GqlF → Bool
  | .nested _ _ _ => true
  | _ => false

theorem build_filter_condition_not_nested (field op : String) (v : Val) :
    isNestedNode (build_filter_condition field op v) = false := by
  cases v <;> (rw [build_filter_condition]; repeat' split) <;>
    first
    | rfl
    | (intro vs h; simp at h)

/-- The conditions contributed by the dotted filters of entity `e`, in
order. -/
def gatherEntity (e : String) (filters : List GraphQLFilter) : List GqlF :=
  (filters.filter (fun f => f.field.data.contains '.' &&
    String.mk (pySplitOnce '.' f.field.data).1 == e)).map
    (fun f => build_filter_condition (String.mk (pySplitOnce '.' f.field.data).2)
      f.operator f.value)

/-- The direct (bare-path) conditions, in order. -/
def bareConds (filters : List GraphQLFilter) : List GqlF :=
  (filters.filter (fun f => !f.field.data.contains '.')).map
    (fun f => build_filter_condition f.field f.operator f.value)

theorem subjectFold_fst :
    ∀ (filters : List GraphQLFilter) (acc : List GqlF × List (String × List GqlF)),
    (filters.foldl subjectStep acc).1 = acc.1 ++ bareConds filters := by
  intro filters
  induction filters with
  | nil => intro acc; simp [bareConds]
  | cons f rest ih =>
    intro acc
    by_cases hdot : f.field.data.contains '.'
    · have hdotm : '.' ∈ f.field.data := by simpa using hdot
      have hstep : subjectStep acc f = (acc.1, dictAppend acc.2
          (String.mk (pySplitOnce '.' f.field.data).1)
          (build_filter_condition (String.mk (pySplitOnce '.' f.field.data).2)
            f.operator f.value)) := by
        simp [subjectStep, hdotm]
      simp only [List.foldl_cons, hstep, ih]
      simp [bareConds, hdotm]
    · have hdotm : '.' ∉ f.field.data := by simpa using hdot
      have hstep : subjectStep acc f =
          (acc.1 ++ [build_filter_condition f.field f.operator f.value], acc.2) := by
        simp [subjectStep, hdotm]
      simp only [List.foldl_cons, hstep, ih]
      simp [bareConds, hdotm]

theorem subjectFold_group :
    ∀ (filters : List GraphQLFilter) (acc : List GqlF × List (String × List GqlF))
    (e : String),
    groupLookup (filters.foldl subjectStep acc).2 e =
      groupLookup acc.2 e ++ gatherEntity e filters := by
  intro filters
  induction filters with
  | nil => intro acc e; simp [gatherEntity]
  | cons f rest ih =>
    intro acc e
    by_cases hdot : f.field.data.contains '.'
    · have hdotm : '.' ∈ f.field.data := by simpa using hdot
      have hstep : subjectStep acc f = (acc.1, dictAppend acc.2
          (String.mk (pySplitOnce '.' f.field.data).1)
          (build_filter_condition (String.mk (pySplitOnce '.' f.field.data).2)
            f.operator f.value)) := by
        simp [subjectStep, hdotm]
      simp only [List.foldl_cons, hstep, ih, groupLookup_dictAppend]
      by_cases he : e = String.mk (pySplitOnce '.' f.field.data).1
      · rw [if_pos he]
        have hg : gatherEntity e (f :: rest) =
            build_filter_condition (String.mk (pySplitOnce '.' f.field.data).2)
              f.operator f.value :: gatherEntity e rest := by
          simp [gatherEntity, hdotm, he]
        rw [hg, List.append_assoc, List.singleton_append]
      · rw [if_neg he]
        have hg : gatherEntity e (f :: rest) = gatherEntity e rest := by
          have hb : ¬ (String.mk (pySplitOnce '.' f.field.data).1 = e) :=
            fun h => he h.symm
          simp [gatherEntity, hdotm, hb]
        rw [hg]
    · have hdotm : '.' ∉ f.field.data := by simpa using hdot
      have hstep : subjectStep acc f =
          (acc.1 ++ [build_filter_condition f.field f.operator f.value], acc.2) := by
        simp [subjectStep, hdotm]
      simp only [List.foldl_cons, hstep, ih]
      have hg : gatherEntity e (f :: rest) = gatherEntity e rest := by
        simp [gatherEntity, hdotm]
      rw [hg]

theorem subjectFold_keys :
    ∀ (filters : List GraphQLFilter) (acc : List GqlF × List (String × List GqlF)),
    ((filters.foldl subjectStep acc).2.map Prod.fst).Nodup =
      ((acc.2.map Prod.fst).Nodup) ∧
    (∀ e, e ∈ (filters.foldl subjectStep acc).2.map Prod.fst ↔
      e ∈ acc.2.map Prod.fst ∨ (filters.any (fun f => f.field.data.contains '.' &&
        String.mk (pySplitOnce '.' f.field.data).1 == e))) := by
  intro filters
  induction filters with
  | nil =>
    intro acc
    exact ⟨rfl, by simp⟩
  | cons f rest ih =>
    intro acc
    by_cases hdot : f.field.data.contains '.'
    · have hdotm : '.' ∈ f.field.data := by simpa using hdot
      have hstep : subjectStep acc f = (acc.1, dictAppend acc.2
          (String.mk (pySplitOnce '.' f.field.data).1)
          (build_filter_condition (String.mk (pySplitOnce '.' f.field.data).2)
            f.operator f.value)) := by
        simp [subjectStep, hdotm]
      have hkeys := keys_dictAppend acc.2 (String.mk (pySplitOnce '.' f.field.data).1)
        (build_filter_condition (String.mk (pySplitOnce '.' f.field.data).2)
          f.operator f.value)
      constructor
      · simp only [List.foldl_cons, hstep]
        rw [(ih _).1, hkeys]
        by_cases hmem : String.mk (pySplitOnce '.' f.field.data).1 ∈ acc.2.map Prod.fst
        · rw [if_pos hmem]
        · rw [if_neg hmem]
          simp only [eq_iff_iff]
          constructor
          · intro h
            exact ((List.nodup_append).mp h).1
          · intro h
            rw [List.nodup_append]
            refine ⟨h, List.nodup_singleton _, ?_⟩
            intro a ha hb
            rw [List.mem_singleton] at hb
            exact hmem (hb ▸ ha)
      · intro e
        simp only [List.foldl_cons, hstep]
        rw [(ih _).2 e, hkeys]
        by_cases hmem : String.mk (pySplitOnce '.' f.field.data).1 ∈ acc.2.map Prod.fst
        · rw [if_pos hmem]
          simp only [List.any_cons, Bool.or_eq_true]
          constructor
          · rintro (h | h)
            · exact Or.inl h
            · exact Or.inr (Or.inr h)
          · rintro (h | h | h)
            · exact Or.inl h
            · obtain ⟨-, he⟩ : '.' ∈ f.field.data ∧
                  String.mk (pySplitOnce '.' f.field.data).1 = e := by simpa using h
              exact Or.inl (he ▸ hmem)
            · exact Or.inr h
        · rw [if_neg hmem]
          simp only [List.mem_append, List.mem_singleton, List.any_cons, Bool.or_eq_true]
          constructor
          · rintro ((h | h) | h)
            · exact Or.inl h
            · exact Or.inr (Or.inl (by simp [hdotm, h]))
            · exact Or.inr (Or.inr h)
          · rintro (h | h | h)
            · exact Or.inl (Or.inl h)
            · obtain ⟨-, he⟩ : '.' ∈ f.field.data ∧
                  String.mk (pySplitOnce '.' f.field.data).1 = e := by simpa using h
              exact Or.inl (Or.inr he.symm)
            · exact Or.inr h
    · have hdotm : '.' ∉ f.field.data := by simpa using hdot
      have hstep : subjectStep acc f =
          (acc.1 ++ [build_filter_condition f.field f.operator f.value], acc.2) := by
        simp [subjectStep, hdotm]
      constructor
      · simp only [List.foldl_cons, hstep]
        exact (ih _).1
      · intro e
        simp only [List.foldl_cons, hstep]
        rw [(ih _).2 e]
        simp [hdotm]

/-- Is the condition a nested node with path `e`? -/
def isNestedPath (e : String) : GqlF → Bool
  | .nested p _ _ => p == e
  | _ => false

theorem isNestedPath_false_of_not_nested (e : String) (c : GqlF)
    (h : isNestedNode c = false) : isNestedPath e c = false := by
  cases c <;> simp_all [isNestedNode, isNestedPath]

theorem find_eq_of_mem_nodup {α : Type} :
    ∀ (d : List (String × α)) (k : String) (v : α),
    (d.map Prod.fst).Nodup → (k, v) ∈ d →
    d.find? (fun kv => kv.1 == k) = some (k, v) := by
  intro d
  induction d with
  | nil => intro k v _ h; simp at h
  | cons hd tl ih =>
    intro k v hnd h
    obtain ⟨a, b⟩ := hd
    simp only [List.map_cons, List.nodup_cons] at hnd
    rcases List.mem_cons.mp h with h | h
    · rw [← h]
      simp [List.find?]
    · have hne : ¬ a = k := by
        intro he
        exact hnd.1 (he ▸ List.mem_map.mpr ⟨(k, v), h, rfl⟩)
      have hb : (a == k) = false := by simpa using hne
      simp only [List.find?, hb]
      exact ih k v hnd.2 h

/-- C6: in the built subject filter, all conditions sharing an entity prefix
are merged into exactly one nested node per entity — one node, never two —
and the children of every nested node are keyed "AND" (the requested logic
operator is never consulted by `_build_subject_filter`), the children being
exactly the conditions built from that entity's filters in order. -/
theorem C6_one_nested_node_per_entity (filters : List GraphQLFilter) (e : String) :
    ((subjectConditions filters).countP (isNestedPath e) =
      if filters.any (fun f => f.field.data.contains '.' &&
          String.mk (pySplitOnce '.' f.field.data).1 == e) then 1 else 0) ∧
    (∀ p op ch, GqlF.nested p op ch ∈ subjectConditions filters →
      op = "AND" ∧ ch = gatherEntity p filters) := by
  have hfst := subjectFold_fst filters ([], [])
  have hgrp := subjectFold_group filters ([], [])
  have hkeys := subjectFold_keys filters ([], [])
  have hnd : ((filters.foldl subjectStep ([], [])).2.map Prod.fst).Nodup := by
    rw [hkeys.1]
    simp
  constructor
  · rw [subjectConditions, List.countP_append]
    have hbare : ((filters.foldl subjectStep ([], [])).1).countP (isNestedPath e) = 0 := by
      rw [List.countP_eq_zero]
      intro c hc
      rw [hfst, List.nil_append] at hc
      obtain ⟨f, hf, rfl⟩ := List.mem_map.mp hc
      simp [isNestedPath_false_of_not_nested e _ (build_filter_condition_not_nested ..)]
    rw [hbare, Nat.zero_add]
    have hnest : (((filters.foldl subjectStep ([], [])).2.map
        (fun pc => GqlF.nested pc.1 "AND" pc.2)).countP (isNestedPath e)) =
        List.count e ((filters.foldl subjectStep ([], [])).2.map Prod.fst) := by
      rw [List.countP_map, List.count, List.countP_map]
      rfl
    rw [hnest]
    have hmemiff : e ∈ (filters.foldl subjectStep ([], [])).2.map Prod.fst ↔
        filters.any (fun f => f.field.data.contains '.' &&
          String.mk (pySplitOnce '.' f.field.data).1 == e) := by
      rw [hkeys.2 e]
      simp
    by_cases hany : filters.any (fun f => f.field.data.contains '.' &&
        String.mk (pySplitOnce '.' f.field.data).1 == e)
    · rw [if_pos hany]
      have hmem := hmemiff.mpr hany
      have hle := List.nodup_iff_count_le_one.mp hnd e
      have hpos : 0 < List.count e ((filters.foldl subjectStep ([], [])).2.map Prod.fst) :=
        List.count_pos_iff.mpr hmem
      omega
    · rw [if_neg hany]
      exact List.count_eq_zero.mpr (fun hmem => hany (hmemiff.mp hmem))
  · intro p op ch hmem
    rw [subjectConditions] at hmem
    rcases List.mem_append.mp hmem with h | h
    · rw [hfst, List.nil_append] at h
      obtain ⟨f, hf, heq⟩ := List.mem_map.mp h
      have hnn := build_filter_condition_not_nested f.field f.operator f.value
      rw [heq] at hnn
      simp [isNestedNode] at hnn
    · obtain ⟨pc, hpc, heq⟩ := List.mem_map.mp h
      injection heq with h1 h2 h3
      refine ⟨h2.symm, ?_⟩
      have hpc2 : (p, ch) ∈ (filters.foldl subjectStep ([], [])).2 := by
        rw [← h1, ← h3]
        simpa using hpc
      have hfind := find_eq_of_mem_nodup _ p ch hnd hpc2
      have hgl : groupLookup (filters.foldl subjectStep ([], [])).2 p = ch := by
        rw [groupLookup, hfind]
        rfl
      rw [← hgl, hgrp p]
      rfl

/-- Two filters on the same nested entity, as in step 4 of the pipeline. -/
def c6SiteFilter : GraphQLFilter :=
  { field := "tumor_assessments.tumor_site", operator := "eq", value := Val.str "Lung" }

def c6StateFilter : GraphQLFilter :=
  { field := "tumor_assessments.tumor_state", operator := "eq", value := Val.str "Present" }

theorem C6_witness :
    (GqlF.nested "tumor_assessments" "AND"
        (gatherEntity "tumor_assessments" [c6SiteFilter, c6StateFilter]) ∈
      subjectConditions [c6SiteFilter, c6StateFilter]) ∧
    ("AND" = "AND" ∧
      gatherEntity "tumor_assessments" [c6SiteFilter, c6StateFilter] =
        gatherEntity "tumor_assessments" [c6SiteFilter, c6StateFilter]) :=
  ⟨by decide,
   (C6_one_nested_node_per_entity [c6SiteFilter, c6StateFilter] "tumor_assessments").2
     "tumor_assessments" "AND" (gatherEntity "tumor_assessments" [c6SiteFilter, c6StateFilter])
     (by decide)⟩

/-! ### catalog/index.py: `_clean_term` (C9) -/

/-- Characters kept by `re.sub(r"[^a-z0-9\s]", "", _)`: lowercase ASCII
letters and digits (whitespace is handled by `isPyWs`). -/
def isLowerAlnum (c : Char) : Bool :=
  ('a' ≤ c ∧ c ≤ 'z') ∨ ('0' ≤ c ∧ c ≤ '9')

/-- `re.sub(r"[^a-z0-9\s]", "", _)` on the character list. -/
def keepAllowed (l : List Char) : List Char :=
  l.filter (fun c => isLowerAlnum c || isPyWs c)

/-- Worker for `re.sub(r"\s+", " ", _)`: each maximal whitespace run becomes
one space; `prevWs` records whether we are inside a run. -/
def collapseGo : Bool → List Char → List Char
  | _, [] => []
  | prevWs, c :: rest =>
    if isPyWs c then
      if prevWs then collapseGo true rest
      else ' ' :: collapseGo true rest
    else c :: collapseGo false rest

/-- `re.sub(r"\s+", " ", _)` on the character list. -/
def collapseWs (l : List Char) : List Char := collapseGo false l

/-- Drop trailing whitespace (the right half of `str.strip()`). -/
def stripEnd : List Char → List Char
  | [] => []
  | c :: rest =>
    match stripEnd rest with
    | [] => if isPyWs c then [] else [c]
    | r => c :: r

/-- `str.strip()` on the character list. -/
def stripL (l : List Char) : List Char := stripEnd (l.dropWhile isPyWs)

/-- `_clean_term` from catalog/index.py: lowercase, strip, drop special
characters, collapse whitespace runs to single spaces, strip again. -/
def clean_term (t : String) : String :=
  String.mk (stripL (collapseWs (keepAllowed (stripL (t.data.map pyLowerChar)))))

/-- A character of a normalized term: lowercase alphanumeric or a single
space. -/
def goodChar (c : Char) : Bool := isLowerAlnum c || c == ' '

/-- No two adjacent whitespace characters. -/
def noAdjWs : List Char → Bool
  | c :: d :: rest => (!(isPyWs c && isPyWs d)) && noAdjWs (d :: rest)
  | _ => true

/-- The first character, if any, is not whitespace. -/
def headNotWs : List Char → Bool
  | [] => true
  | c :: _ => !isPyWs c

/-- The last character, if any, is not whitespace. -/
def lastNotWs : List Char → Bool
  | [] => true
  | [c] => !isPyWs c
  | _ :: c :: rest => lastNotWs (c :: rest)

/-- Fully normalized character list: only lowercase alphanumerics and single
interior spaces, no leading or trailing space. -/
def isNormalL (l : List Char) : Bool :=
  l.all goodChar && noAdjWs l && headNotWs l && lastNotWs l

theorem isPyWs_eq (c : Char) (h : isPyWs c = true) :
    c = ' ' ∨ c = '\t' ∨ c = '\n' ∨ c = '\r' ∨ c = '\x0b' ∨ c = '\x0c' := by
  simpa [isPyWs, decide_eq_true_eq] using h

theorem not_ws_of_isLowerAlnum (c : Char) (h : isLowerAlnum c = true) :
    isPyWs c = false := by
  cases hw : isPyWs c
  · rfl
  · exfalso
    rcases isPyWs_eq c hw with rfl | rfl | rfl | rfl | rfl | rfl <;>
      exact absurd h (by decide)

theorem pyLowerChar_fix (c : Char) (h : goodChar c = true) : pyLowerChar c = c := by
  simp only [goodChar, Bool.or_eq_true, beq_iff_eq] at h
  rcases h with h | rfl
  · simp only [isLowerAlnum, decide_eq_true_eq] at h
    rw [pyLowerChar, if_neg]
    rintro ⟨hA, hZ⟩
    rcases h with ⟨h1, _⟩ | ⟨_, h2⟩
    · exact absurd (le_trans h1 hZ) (by decide)
    · exact absurd (le_trans hA h2) (by decide)
  · rfl

theorem goodChar_allowed (c : Char) (h : goodChar c = true) :
    (isLowerAlnum c || isPyWs c) = true := by
  simp only [goodChar, Bool.or_eq_true, beq_iff_eq] at h
  rcases h with h | rfl
  · simp [h]
  · simp [isPyWs]

theorem goodChar_space (c : Char) (hg : goodChar c = true) (hw : isPyWs c = true) :
    c = ' ' := by
  simp only [goodChar, Bool.or_eq_true, beq_iff_eq] at hg
  rcases hg with hg | rfl
  · rw [not_ws_of_isLowerAlnum c hg] at hw
    cases hw
  · rfl

theorem noAdjWs_tail (c : Char) (l : List Char) (h : noAdjWs (c :: l) = true) :
    noAdjWs l = true := by
  cases l with
  | nil => rfl
  | cons d t =>
    simp only [noAdjWs, Bool.and_eq_true] at h
    exact h.2

theorem noAdjWs_pair (c d : Char) (t : List Char)
    (h : noAdjWs (c :: d :: t) = true) : (isPyWs c && isPyWs d) = false := by
  simp only [noAdjWs, Bool.and_eq_true, Bool.not_eq_true'] at h
  exact h.1

theorem noAdjWs_cons_of_head (c : Char) (l : List Char)
    (hh : headNotWs l = true) (hl : noAdjWs l = true) : noAdjWs (c :: l) = true := by
  cases l with
  | nil => rfl
  | cons b t =>
    simp only [headNotWs, Bool.not_eq_true'] at hh
    simp only [noAdjWs, Bool.and_eq_true, Bool.not_eq_true']
    exact ⟨by simp [hh], hl⟩

theorem noAdjWs_cons_of_not_ws (c : Char) (l : List Char)
    (hc : isPyWs c = false) (hl : noAdjWs l = true) : noAdjWs (c :: l) = true := by
  cases l with
  | nil => rfl
  | cons b t =>
    simp only [noAdjWs, Bool.and_eq_true, Bool.not_eq_true']
    exact ⟨by simp [hc], hl⟩

theorem collapseGo_all_good : ∀ (l : List Char) (prev : Bool),
    l.all (fun c => isLowerAlnum c || isPyWs c) = true →
    (collapseGo prev l).all goodChar = true := by
  intro l
  induction l with
  | nil => intro prev _; rfl
  | cons c rest ih =>
    intro prev h
    simp only [List.all_cons, Bool.and_eq_true] at h
    cases hws : isPyWs c
    · rw [show collapseGo prev (c :: rest) = c :: collapseGo false rest from by
        simp [collapseGo, hws]]
      simp only [List.all_cons, Bool.and_eq_true]
      refine ⟨?_, ih false h.2⟩
      have h1 : isLowerAlnum c = true := by simpa [hws] using h.1
      simp [goodChar, h1]
    · cases prev
      · rw [show collapseGo false (c :: rest) = ' ' :: collapseGo true rest from by
          simp [collapseGo, hws]]
        simp only [List.all_cons, Bool.and_eq_true]
        exact ⟨by decide, ih true h.2⟩
      · rw [show collapseGo true (c :: rest) = collapseGo true rest from by
          simp [collapseGo, hws]]
        exact ih true h.2

theorem collapseGo_head_true : ∀ l : List Char,
    headNotWs (collapseGo true l) = true := by
  intro l
  induction l with
  | nil => rfl
  | cons c rest ih =>
    cases hws : isPyWs c
    · rw [show collapseGo true (c :: rest) = c :: collapseGo false rest from by
        simp [collapseGo, hws]]
      simp [headNotWs, hws]
    · rw [show collapseGo true (c :: rest) = collapseGo true rest from by
        simp [collapseGo, hws]]
      exact ih

theorem collapseGo_noAdjWs : ∀ (l : List Char) (prev : Bool),
    noAdjWs (collapseGo prev l) = true := by
  intro l
  induction l with
  | nil => intro prev; rfl
  | cons c rest ih =>
    intro prev
    cases hws : isPyWs c
    · rw [show collapseGo prev (c :: rest) = c :: collapseGo false rest from by
        simp [collapseGo, hws]]
      exact noAdjWs_cons_of_not_ws c _ hws (ih false)
    · cases prev
      · rw [show collapseGo false (c :: rest) = ' ' :: collapseGo true rest from by
          simp [collapseGo, hws]]
        exact noAdjWs_cons_of_head ' ' _ (collapseGo_head_true rest) (ih true)
      · rw [show collapseGo true (c :: rest) = collapseGo true rest from by
          simp [collapseGo, hws]]
        exact ih true

theorem collapseGo_fix : ∀ l : List Char, l.all goodChar = true → noAdjWs l = true →
    ∀ prev : Bool, (prev = true → headNotWs l = true) → collapseGo prev l = l := by
  intro l
  induction l with
  | nil => intro _ _ prev _; rfl
  | cons c rest ih =>
    intro hall hadj prev hprev
    simp only [List.all_cons, Bool.and_eq_true] at hall
    cases hws : isPyWs c
    · rw [show collapseGo prev (c :: rest) = c :: collapseGo false rest from by
        simp [collapseGo, hws]]
      rw [ih hall.2 (noAdjWs_tail c rest hadj) false (fun hf => absurd hf (by decide))]
    · cases prev
      · have hc : c = ' ' := goodChar_space c hall.1 hws
        rw [show collapseGo false (c :: rest) = ' ' :: collapseGo true rest from by
          simp [collapseGo, hws]]
        have hhead : headNotWs rest = true := by
          cases rest with
          | nil => rfl
          | cons d t =>
            have hp := noAdjWs_pair c d t hadj
            rw [hws, Bool.true_and] at hp
            simp [headNotWs, hp]
        rw [ih hall.2 (noAdjWs_tail c rest hadj) true (fun _ => hhead), hc]
      · exfalso
        have hh := hprev rfl
        simp [headNotWs, hws] at hh

theorem keepAllowed_all (l : List Char) :
    (keepAllowed l).all (fun c => isLowerAlnum c || isPyWs c) = true := by
  rw [List.all_eq_true]
  intro c hc
  rw [keepAllowed] at hc
  exact (List.mem_filter.mp hc).2

theorem keepAllowed_fix (l : List Char) (h : l.all goodChar = true) :
    keepAllowed l = l := by
  rw [keepAllowed, List.filter_eq_self]
  intro a ha
  rw [List.all_eq_true] at h
  exact goodChar_allowed a (h a ha)

theorem map_lower_fix (l : List Char) (h : l.all goodChar = true) :
    l.map pyLowerChar = l := by
  induction l with
  | nil => rfl
  | cons c rest ih =>
    simp only [List.all_cons, Bool.and_eq_true] at h
    simp [pyLowerChar_fix c h.1, ih h.2]

theorem dropWhile_all (p q : Char → Bool) : ∀ l : List Char,
    l.all p = true → (l.dropWhile q).all p = true := by
  intro l
  induction l with
  | nil => intro _; rfl
  | cons c rest ih =>
    intro h
    simp only [List.all_cons, Bool.and_eq_true] at h
    cases hq : q c
    · simp [List.dropWhile_cons, hq, List.all_cons, h.1, h.2]
    · simpa [List.dropWhile_cons, hq] using ih h.2

theorem dropWhile_noAdjWs : ∀ l : List Char,
    noAdjWs l = true → noAdjWs (l.dropWhile isPyWs) = true := by
  intro l
  induction l with
  | nil => intro _; rfl
  | cons c rest ih =>
    intro h
    cases hq : isPyWs c
    · simpa [List.dropWhile_cons, hq] using h
    · simpa [List.dropWhile_cons, hq] using ih (noAdjWs_tail c rest h)

theorem headNotWs_dropWhile : ∀ l : List Char,
    headNotWs (l.dropWhile isPyWs) = true := by
  intro l
  induction l with
  | nil => rfl
  | cons c rest ih =>
    cases hq : isPyWs c
    · simp [List.dropWhile_cons, hq, headNotWs]
    · simpa [List.dropWhile_cons, hq] using ih

theorem dropWhile_ws_fix (l : List Char) (h : headNotWs l = true) :
    l.dropWhile isPyWs = l := by
  cases l with
  | nil => rfl
  | cons c rest =>
    simp only [headNotWs, Bool.not_eq_true'] at h
    simp [List.dropWhile_cons, h]

theorem stripEnd_head : ∀ l : List Char,
    stripEnd l = [] ∨ (stripEnd l).head? = l.head? := by
  intro l
  cases l with
  | nil => exact Or.inl rfl
  | cons c rest =>
    cases hse : stripEnd rest with
    | nil =>
      cases hws : isPyWs c
      · right
        rw [show stripEnd (c :: rest) = [c] from by simp [stripEnd, hse, hws]]
        rfl
      · left
        simp [stripEnd, hse, hws]
    | cons b t =>
      right
      rw [show stripEnd (c :: rest) = c :: b :: t from by simp [stripEnd, hse]]
      rfl

theorem stripEnd_all (p : Char → Bool) : ∀ l : List Char,
    l.all p = true → (stripEnd l).all p = true := by
  intro l
  induction l with
  | nil => intro _; rfl
  | cons c rest ih =>
    intro h
    simp only [List.all_cons, Bool.and_eq_true] at h
    cases hse : stripEnd rest with
    | nil =>
      simp only [stripEnd, hse]
      split
      · rfl
      · simp [List.all_cons, h.1]
    | cons b t =>
      simp only [stripEnd, hse]
      simp only [List.all_cons, Bool.and_eq_true]
      refine ⟨h.1, ?_⟩
      have := ih h.2
      rw [hse] at this
      simpa [List.all_cons] using this

theorem stripEnd_noAdjWs : ∀ l : List Char,
    noAdjWs l = true → noAdjWs (stripEnd l) = true := by
  intro l
  induction l with
  | nil => intro _; rfl
  | cons c rest ih =>
    intro h
    cases hse : stripEnd rest with
    | nil =>
      simp only [stripEnd, hse]
      split <;> rfl
    | cons b t =>
      simp only [stripEnd, hse]
      have hbt : noAdjWs (b :: t) = true := by
        have := ih (noAdjWs_tail c rest h)
        rwa [hse] at this
      cases rest with
      | nil => simp [stripEnd] at hse
      | cons r0 rt =>
        rcases stripEnd_head (r0 :: rt) with hnil | hhd
        · rw [hse] at hnil
          cases hnil
        · rw [hse] at hhd
          have hb : b = r0 := by simpa using hhd
          subst hb
          have hp := noAdjWs_pair c b rt h
          simp only [noAdjWs, Bool.and_eq_true, Bool.not_eq_true']
          exact ⟨hp, hbt⟩

theorem stripEnd_lastNotWs : ∀ l : List Char, lastNotWs (stripEnd l) = true := by
  intro l
  induction l with
  | nil => rfl
  | cons c rest ih =>
    cases hse : stripEnd rest with
    | nil =>
      simp only [stripEnd, hse]
      cases hws : isPyWs c <;> simp [hws, lastNotWs]
    | cons b t =>
      simp only [stripEnd, hse]
      rw [show lastNotWs (c :: b :: t) = lastNotWs (b :: t) from rfl, ← hse]
      exact ih

theorem stripEnd_fix : ∀ l : List Char, lastNotWs l = true → stripEnd l = l := by
  intro l
  induction l with
  | nil => intro _; rfl
  | cons c rest ih =>
    intro h
    cases rest with
    | nil =>
      have hc : isPyWs c = false := by simpa [lastNotWs, Bool.not_eq_true'] using h
      simp [stripEnd, hc]
    | cons r0 rt =>
      have hr : lastNotWs (r0 :: rt) = true := h
      have h2 : stripEnd (c :: r0 :: rt) = match stripEnd (r0 :: rt) with
        | [] => if isPyWs c then [] else [c]
        | r => c :: r := rfl
      rw [h2, ih hr]

theorem stripEnd_headNotWs (l : List Char) (h : headNotWs l = true) :
    headNotWs (stripEnd l) = true := by
  cases hse : stripEnd l with
  | nil => rfl
  | cons s0 st =>
    rcases stripEnd_head l with hnil | hhd
    · rw [hse] at hnil
      cases hnil
    · rw [hse] at hhd
      cases l with
      | nil => simp at hhd
      | cons c t =>
        have hs : s0 = c := by simpa using hhd
        subst hs
        exact h

theorem stripL_all (p : Char → Bool) (l : List Char) (h : l.all p = true) :
    (stripL l).all p = true :=
  stripEnd_all p _ (dropWhile_all p isPyWs l h)

theorem stripL_noAdjWs (l : List Char) (h : noAdjWs l = true) :
    noAdjWs (stripL l) = true :=
  stripEnd_noAdjWs _ (dropWhile_noAdjWs l h)

theorem stripL_head (l : List Char) : headNotWs (stripL l) = true :=
  stripEnd_headNotWs _ (headNotWs_dropWhile l)

theorem stripL_last (l : List Char) : lastNotWs (stripL l) = true :=
  stripEnd_lastNotWs _

theorem stripL_fix (l : List Char) (hh : headNotWs l = true)
    (hl : lastNotWs l = true) : stripL l = l := by
  rw [stripL, dropWhile_ws_fix l hh, stripEnd_fix l hl]

theorem clean_term_normal (t : String) : isNormalL (clean_term t).data = true := by
  show isNormalL (stripL (collapseWs (keepAllowed (stripL (t.data.map pyLowerChar))))) = true
  have hall : (collapseWs (keepAllowed (stripL (t.data.map pyLowerChar)))).all goodChar = true :=
    collapseGo_all_good _ false (keepAllowed_all _)
  have hadj : noAdjWs (collapseWs (keepAllowed (stripL (t.data.map pyLowerChar)))) = true :=
    collapseGo_noAdjWs _ false
  simp only [isNormalL, Bool.and_eq_true]
  exact ⟨⟨⟨stripL_all goodChar _ hall, stripL_noAdjWs _ hadj⟩, stripL_head _⟩, stripL_last _⟩

theorem clean_term_fix (l : List Char) (h : isNormalL l = true) :
    clean_term (String.mk l) = String.mk l := by
  simp only [isNormalL, Bool.and_eq_true] at h
  obtain ⟨⟨⟨hall, hadj⟩, hhead⟩, hlast⟩ := h
  show String.mk (stripL (collapseWs (keepAllowed (stripL (l.map pyLowerChar))))) = String.mk l
  rw [map_lower_fix l hall, stripL_fix l hhead hlast, keepAllowed_fix l hall,
    show collapseWs l = l from collapseGo_fix l hall hadj false (fun hf => absurd hf (by decide)),
    stripL_fix l hhead hlast]

/-- C9: the term-cleaning function used by index build and search is
idempotent: `_clean_term (_clean_term t) = _clean_term t` for every string,
so an already-normalized term is left unchanged. -/
theorem C9_clean_term_idempotent (t : String) :
    clean_term (clean_term t) = clean_term t :=
  clean_term_fix (clean_term t).data (clean_term_normal t)

/-! ### catalog/index.py: index build and search (C7) -/

/-- `config.MIN_TERM_LENGTH` (default 2). -/
def MIN_TERM_LENGTH : Nat := 2

/-- `config.MAX_CANDIDATES_PER_TERM` (default 5). -/
def MAX_CANDIDATES_PER_TERM : Nat := 5

/-- `config.KEYWORD_MATCH_THRESHOLD` (default 0.8). -/
def KEYWORD_MATCH_THRESHOLD : ℚ := 8/10

/-- Worker for Python `str.split()` with no separator: maximal non-whitespace
runs, no empty words; `acc` holds the current word reversed. -/
def pyWordsGo : List Char → List Char → List (List Char)
  | [], acc => if acc.isEmpty then [] else [acc.reverse]
  | c :: rest, acc =>
    if isPyWs c then
      if acc.isEmpty then pyWordsGo rest []
      else acc.reverse :: pyWordsGo rest []
    else pyWordsGo rest (c :: acc)

/-- Python `str.split()` (no arguments). -/
def pySplitWs (s : String) : List String := (pyWordsGo s.data []).map String.mk

/-- `_tokenize_term` from catalog/index.py. -/
def tokenize_term (t : String) : List String :=
  if t == "" then []
  else (pySplitWs t).filter (fun w => MIN_TERM_LENGTH ≤ w.length)

/-- Lookup in an insertion-ordered dict (`k in d` iff the result is `some`). -/
def dictFind {α : Type} (d : List (String × α)) (k : String) : Option α :=
  (d.find? (fun kv => kv.1 == k)).map (fun kv => kv.2)

/-- `collections.defaultdict(list)` append for `Nat` keys
(`field_scores[field_idx].append(word)`). -/
def natDictAppend {α : Type} (d : List (Nat × List α)) (k : Nat) (x : α) :
    List (Nat × List α) :=
  match d with
  | [] => [(k, [x])]
  | (k', xs) :: rest =>
    if k' = k then (k', xs ++ [x]) :: rest
    else (k', xs) :: natDictAppend rest k x

/-- `build_index` from catalog/index.py: the `term_index` it constructs.
Each searchable term is indexed under its full cleaned form, and again under
each of its words of length `≥ MIN_TERM_LENGTH` — so a single-word term
indexes its own field twice under the same key. -/
def buildTermIndex (fields : List CatalogField) : List (String × List Nat) :=
  fields.enum.foldl (fun idx p =>
    p.2.searchable_terms.foldl (fun idx1 term =>
      let clean := clean_term term
      let idx2 := if clean != "" then dictAppend idx1 clean p.1 else idx1
      (tokenize_term clean).foldl (fun idx3 word =>
        if MIN_TERM_LENGTH ≤ word.length then dictAppend idx3 word p.1 else idx3)
        idx2) idx) []

/-- `_exact_match_search` from catalog/index.py. -/
def exact_match_search (idx : List (String × List Nat))
    (fields : List CatalogField) (query_term : String) : List FieldCandidate :=
  match dictFind idx query_term with
  | none => []
  | some idxs => idxs.filterMap (fun i => (fields[i]?).map (fun field =>
      { term := query_term, field := field, match_score := 1,
        match_reason := "Exact term match" }))

/-- `_partial_match_search` from catalog/index.py. The score is the matched
word count over the query word count — with the double-indexed words of
`buildTermIndex`, the numerator can exceed the denominator. -/
def partial_match_search (idx : List (String × List Nat))
    (fields : List CatalogField) (query_term : String) : List FieldCandidate :=
  let query_words := tokenize_term query_term
  let field_scores := query_words.foldl (fun fs word =>
    if MIN_TERM_LENGTH ≤ word.length then
      match dictFind idx word with
      | some idxs => idxs.foldl (fun fs2 i => natDictAppend fs2 i word) fs
      | none => fs
    else fs) []
  field_scores.filterMap (fun p =>
    if p.1 < fields.length then
      match fields[p.1]? with
      | some field =>
        let score : ℚ := (p.2.length : ℚ) / (query_words.length : ℚ)
        if 3/10 ≤ score then
          some { term := query_term, field := field,
                 match_score := score * (8/10),
                 match_reason := "Partial match (" ++ toString p.2.length ++ "/" ++
                   toString query_words.length ++ " words)" }
        else none
      | none => none
    else none)

/-- `_fuzzy_match_search` from catalog/index.py, with difflib's
`SequenceMatcher(None, a, b).ratio()` abstracted as `sim` (the decimal
formatting of the similarity inside the reason string is elided). -/
def fuzzy_match_search (sim : String → String → ℚ)
    (fields : List CatalogField) (query_term : String) : List FieldCandidate :=
  if query_term.length < 3 then []
  else fields.filterMap (fun field =>
    let best := field.searchable_terms.foldl (fun b st =>
      let s := sim (pyLower query_term) (pyLower st)
      if b.1 < s then (s, st) else b) ((0 : ℚ), "")
    if KEYWORD_MATCH_THRESHOLD ≤ best.1 then
      some { term := query_term, field := field, match_score := best.1 * (6/10),
             match_reason := "Fuzzy match with " ++ "'" ++ best.2 ++ "'" }
    else none)

/-- `_deduplicate_and_rank` from catalog/index.py: group by field path, keep
the first maximum of each group (Python `max`), sort by score descending
(stable, like Python `sort(reverse=True)`). -/
def deduplicate_and_rank (candidates : List FieldCandidate) : List FieldCandidate :=
  let field_groups := candidates.foldl (fun g c => dictAppend g c.field.path c) []
  let unique_candidates := field_groups.filterMap (fun p =>
    match p.2 with
    | [] => none
    | c0 :: rest =>
      some (rest.foldl (fun best c =>
        if best.match_score < c.match_score then c else best) c0))
  List.insertionSort (fun a b => b.match_score ≤ a.match_score) unique_candidates

/-- Ranking stage of `search`, split out so the fuzzy candidates can be
rewritten independently of `sim`. -/
def searchRank (idx : List (String × List Nat)) (fields : List CatalogField)
    (clean_query : String) (fuzzy : List FieldCandidate) : List FieldCandidate :=
  (deduplicate_and_rank
    (exact_match_search idx fields clean_query ++
     partial_match_search idx fields clean_query ++ fuzzy)).take
    MAX_CANDIDATES_PER_TERM

/-- `search` from catalog/index.py over a freshly built index. -/
def search (sim : String → String → ℚ) (fields : List CatalogField)
    (query_term : String) : List FieldCandidate :=
  let idx := buildTermIndex fields
  let clean_query := clean_term query_term
  if clean_query == "" then []
  else searchRank idx fields clean_query (fuzzy_match_search sim fields clean_query)

/-- The bound `FieldCandidate.match_score` declares in core/models.py:
`Field(0.0, ge=0.0, le=1.0)`; pydantic rejects candidates outside it. -/
def matchScoreWithinBounds (c : FieldCandidate) : Prop :=
  0 ≤ c.match_score ∧ c.match_score ≤ 1

/-- A catalog field whose single searchable term is the one word "sex". -/
def c7Field : CatalogField :=
  { path := "demographics.sex", field_type := FieldType.ENUMERATION,
    enum_values := some ["Male", "Female"],
    description := some "Sex of the subject", searchable_terms := ["sex"] }

def c7Catalog : List CatalogField := [c7Field]

/-- The single candidate `search` produces for "sex" on `c7Catalog`. -/
def c7BugCand : FieldCandidate :=
  { term := "sex", field := c7Field, match_score := 8/5,
    match_reason := "Partial match (2/1 words)" }

/-- `SequenceMatcher.ratio()` on two equal strings is 1; any similarity
function with that property exhibits the bug. -/
def simEq (a b : String) : ℚ := if a == b then 1 else 0

/-- C7: the exact-match-ranks-first claim fails — and the code violates its
own model contract. On a catalog whose field has the single-word searchable
term "sex", the query "sex" satisfies the claim's premise (its cleaned form
equals the field's cleaned searchable term verbatim), but `build_index`
indexes that term twice under the same key, so `search` returns the field's
sole candidate as a *partial* match with score 2/1 × 0.8 = 8/5 — not 1.0 —
which breaks the `0 ≤ match_score ≤ 1` bound `FieldCandidate` declares
(pydantic raises a ValidationError at candidate construction). -/
theorem C7_exact_match_rank (sim : String → String → ℚ)
    (hsim : sim "sex" "sex" = 1) :
    clean_term "sex" = "sex" ∧
    "sex" ∈ c7Field.searchable_terms.map clean_term ∧
    search sim c7Catalog "sex" = [c7BugCand] ∧
    c7BugCand.match_score ≠ 1 ∧
    ¬ matchScoreWithinBounds c7BugCand := by
  refine ⟨by decide, by decide, ?_, by decide, ?_⟩
  · have h0 : search sim c7Catalog "sex" =
        searchRank (buildTermIndex c7Catalog) c7Catalog (clean_term "sex")
          (fuzzy_match_search sim c7Catalog (clean_term "sex")) := rfl
    have hsim' : sim (pyLower (clean_term "sex")) (pyLower "sex") = 1 := hsim
    have hfz : fuzzy_match_search sim c7Catalog (clean_term "sex") =
        [{ term := clean_term "sex", field := c7Field, match_score := 1 * (6/10),
           match_reason := "Fuzzy match with " ++ "'" ++ "sex" ++ "'" }] := by
      rw [fuzzy_match_search, if_neg (by decide),
        show c7Catalog = [c7Field] from rfl, List.filterMap_cons, List.filterMap_nil]
      simp only [c7Field, List.foldl_cons, List.foldl_nil, hsim']
      norm_num
      rw [if_pos (show KEYWORD_MATCH_THRESHOLD ≤ 1 by decide)]
    rw [h0, hfz]
    decide
  · rw [matchScoreWithinBounds]
    decide

theorem C7_exact_match_rank_witness :
    simEq "sex" "sex" = 1 ∧
    (clean_term "sex" = "sex" ∧
     "sex" ∈ c7Field.searchable_terms.map clean_term ∧
     search simEq c7Catalog "sex" = [c7BugCand] ∧
     c7BugCand.match_score ≠ 1 ∧
     ¬ matchScoreWithinBounds c7BugCand) :=
  ⟨by decide, C7_exact_match_rank simEq (by decide)⟩

/-! ### graphql/builder.py: query emission and validation (C8) -/

/-- JSON values, as produced by `json.dumps` / consumed by `json.loads`.
Numbers are exact rationals. -/
inductive Json where
  | str (s : String)
  | num (q : ℚ)
  | bool (b : Bool)
  | null
  | arr (xs : List Json)
  | obj (kvs : List (String × Json))

/-- One hexadecimal digit, lowercase (as Python's `\uXXXX` escapes). -/
def hexDigit (n : Nat) : Char :=
  if n < 10 then Char.ofNat (48 + n) else Char.ofNat (87 + n)

/-- `json.dumps` escaping of a single character (`ensure_ascii=True`):
double quote, backslash, the short control escapes, `\u00XX` for other
control characters and `\uXXXX` for non-ASCII code points (astral plane
surrogate pairs are out of model). -/
def jsonEscapeChar (c : Char) : List Char :=
  if c = '"' then ['\\', '"']
  else if c = '\\' then ['\\', '\\']
  else if c = '\n' then ['\\', 'n']
  else if c = '\t' then ['\\', 't']
  else if c = '\r' then ['\\', 'r']
  else if c = '\x08' then ['\\', 'b']
  else if c = '\x0c' then ['\\', 'f']
  else if c.toNat < 32 ∨ 126 < c.toNat then
    ['\\', 'u', hexDigit (c.toNat / 4096 % 16), hexDigit (c.toNat / 256 % 16),
     hexDigit (c.toNat / 16 % 16), hexDigit (c.toNat % 16)]
  else [c]

/-- A JSON string literal with quotes and escapes. -/
def jsonEscape (s : String) : String :=
  String.mk ('"' :: (s.data.map jsonEscapeChar).flatten ++ ['"'])

/-- `json.dumps` of a number. Integral rationals print exactly as Python
ints; the decimal formatting of non-integral floats is elided (they print as
`num/den`, which no warning in validate_query depends on). -/
def jsonNumRepr (q : ℚ) : String :=
  if q.den = 1 then toString q.num
  else toString q.num ++ "/" ++ toString q.den

mutual

/-- Compact `json.dumps` with Python's default separators
`(", ", ": ")`. -/
def jsonDumps : Json → String
  | .str s => jsonEscape s
  | .num q => jsonNumRepr q
  | .bool b => if b then "true" else "false"
  | .null => "null"
  | .arr xs => "[" ++ jsonDumpsList xs ++ "]"
  | .obj kvs => "\x7b" ++ jsonDumpsObj kvs ++ "\x7d"

def jsonDumpsList : List Json → String
  | [] => ""
  | [x] => jsonDumps x
  | x :: y :: rest => jsonDumps x ++ ", " ++ jsonDumpsList (y :: rest)

def jsonDumpsObj : List (String × Json) → String
  | [] => ""
  | [kv] => jsonEscape kv.1 ++ ": " ++ jsonDumps kv.2
  | kv :: p :: rest =>
    jsonEscape kv.1 ++ ": " ++ jsonDumps kv.2 ++ ", " ++ jsonDumpsObj (p :: rest)

end

/-- `n` spaces. -/
def spacesJ (n : Nat) : String := String.mk (List.replicate n ' ')

mutual

/-- `json.dumps(..., indent=2)` at nesting level `lvl` (item separator
becomes `,\n`, key separator stays `: `, empty containers stay inline). -/
def jsonDumpsInd : Nat → Json → String
  | _, .str s => jsonEscape s
  | _, .num q => jsonNumRepr q
  | _, .bool b => if b then "true" else "false"
  | _, .null => "null"
  | _, .arr [] => "[]"
  | lvl, .arr (x :: xs) =>
    "[\n" ++ jsonDumpsIndList (lvl + 1) (x :: xs) ++ "\n" ++ spacesJ (2 * lvl) ++ "]"
  | _, .obj [] => "\x7b\x7d"
  | lvl, .obj (kv :: kvs) =>
    "\x7b\n" ++ jsonDumpsIndObj (lvl + 1) (kv :: kvs) ++ "\n" ++ spacesJ (2 * lvl) ++ "\x7d"

def jsonDumpsIndList : Nat → List Json → String
  | _, [] => ""
  | lvl, [x] => spacesJ (2 * lvl) ++ jsonDumpsInd lvl x
  | lvl, x :: y :: rest =>
    spacesJ (2 * lvl) ++ jsonDumpsInd lvl x ++ ",\n" ++ jsonDumpsIndList lvl (y :: rest)

def jsonDumpsIndObj : Nat → List (String × Json) → String
  | _, [] => ""
  | lvl, [kv] => spacesJ (2 * lvl) ++ jsonEscape kv.1 ++ ": " ++ jsonDumpsInd lvl kv.2
  | lvl, kv :: p :: rest =>
    spacesJ (2 * lvl) ++ jsonEscape kv.1 ++ ": " ++ jsonDumpsInd lvl kv.2 ++ ",\n" ++
      jsonDumpsIndObj lvl (p :: rest)

end

/-- `json.dumps(v, indent=2)` as called by `build_query`. -/
def jsonDumps2 (j : Json) : String := jsonDumpsInd 0 j

/-- JSON whitespace skipped by the decoder. -/
def skipWsJ (l : List Char) : List Char :=
  l.dropWhile (fun c => c = ' ' ∨ c = '\t' ∨ c = '\n' ∨ c = '\r')

/-- Value of one hexadecimal digit. -/
def hexVal (c : Char) : Option Nat :=
  if '0' ≤ c ∧ c ≤ '9' then some (c.toNat - 48)
  else if 'a' ≤ c ∧ c ≤ 'f' then some (c.toNat - 87)
  else if 'A' ≤ c ∧ c ≤ 'F' then some (c.toNat - 55)
  else none

/-- JSON short escape characters. -/
def escCharJ (e : Char) : Option Char :=
  if e = '"' then some '"'
  else if e = '\\' then some '\\'
  else if e = '/' then some '/'
  else if e = 'n' then some '\n'
  else if e = 't' then some '\t'
  else if e = 'r' then some '\r'
  else if e = 'b' then some '\x08'
  else if e = 'f' then some '\x0c'
  else none

/-- Decode a JSON string body (after the opening quote); returns the
characters and the rest of the input after the closing quote. -/
def parseStrJ : List Char → Option (List Char × List Char)
  | [] => none
  | '"' :: rest => some ([], rest)
  | '\\' :: e :: rest =>
    if e = 'u' then
      match rest with
      | h1 :: h2 :: h3 :: h4 :: rr =>
        match hexVal h1, hexVal h2, hexVal h3, hexVal h4 with
        | some a, some b, some c, some d =>
          (parseStrJ rr).map (fun p => (Char.ofNat (4096 * a + 256 * b + 16 * c + d) :: p.1, p.2))
        | _, _, _, _ => none
      | _ => none
    else
      match escCharJ e with
      | some c => (parseStrJ rest).map (fun p => (c :: p.1, p.2))
      | none => none
  | c :: rest => (parseStrJ rest).map (fun p => (c :: p.1, p.2))

def isDigitJ (c : Char) : Bool := '0' ≤ c ∧ c ≤ '9'

def digitsValJ (l : List Char) : Nat := l.foldl (fun a c => a * 10 + (c.toNat - 48)) 0

/-- Decode an optional exponent suffix body (after `e`/`E`): success flag,
exponent, rest. -/
def parseExpJ (r : List Char) : Bool × Int × List Char :=
  let p := match r with
    | '+' :: rr => ((1 : Int), rr)
    | '-' :: rr => ((-1 : Int), rr)
    | _ => ((1 : Int), r)
  let eds := p.2.takeWhile isDigitJ
  if eds.isEmpty then (false, 0, p.2)
  else (true, p.1 * (digitsValJ eds : Int), p.2.drop eds.length)

/-- Decode a JSON number as an exact rational. -/
def parseNumJ (l : List Char) : Option (Json × List Char) :=
  let s := match l with
    | '-' :: r => (true, r)
    | _ => (false, l)
  let ds := s.2.takeWhile isDigitJ
  if ds.isEmpty then none
  else
    let l2 := s.2.drop ds.length
    let f := match l2 with
      | '.' :: r =>
        let fds := r.takeWhile isDigitJ
        (!fds.isEmpty, fds, r.drop fds.length)
      | _ => (true, ([] : List Char), l2)
    if !f.1 then none
    else
      let e := match f.2.2 with
        | 'e' :: r => parseExpJ r
        | 'E' :: r => parseExpJ r
        | _ => (true, (0 : Int), f.2.2)
      if !e.1 then none
      else
        let mant : ℚ := (digitsValJ ds : ℚ) + (digitsValJ f.2.1 : ℚ) / ((10 : ℚ) ^ f.2.1.length)
        let sgn : ℚ := if s.1 then -1 else 1
        let scale : ℚ :=
          if 0 ≤ e.2.1 then (10 : ℚ) ^ e.2.1.toNat else ((10 : ℚ) ^ (-e.2.1).toNat)⁻¹
        some (.num (sgn * mant * scale), e.2.2)

mutual

/-- Recursive-descent JSON decoder (`json.loads`), fuel-indexed; `none` is a
`JSONDecodeError`. -/
def parseJ : Nat → List Char → Option (Json × List Char)
  | 0, _ => none
  | fuel + 1, l =>
    match skipWsJ l with
    | '\x7b' :: rest =>
      match skipWsJ rest with
      | '\x7d' :: r => some (.obj [], r)
      | _ => (parseMembersJ fuel rest).map (fun p => (Json.obj p.1, p.2))
    | '[' :: rest =>
      match skipWsJ rest with
      | ']' :: r => some (.arr [], r)
      | _ => (parseElemsJ fuel rest).map (fun p => (Json.arr p.1, p.2))
    | '"' :: rest => (parseStrJ rest).map (fun p => (Json.str (String.mk p.1), p.2))
    | 't' :: rest => if startMatch ['r', 'u', 'e'] rest then some (.bool true, rest.drop 3) else none
    | 'f' :: rest => if startMatch ['a', 'l', 's', 'e'] rest then some (.bool false, rest.drop 4) else none
    | 'n' :: rest => if startMatch ['u', 'l', 'l'] rest then some (.null, rest.drop 3) else none
    | l2 => parseNumJ l2

def parseMembersJ : Nat → List Char → Option (List (String × Json) × List Char)
  | 0, _ => none
  | fuel + 1, l =>
    match skipWsJ l with
    | '"' :: rest =>
      match parseStrJ rest with
      | none => none
      | some (k, r1) =>
        match skipWsJ r1 with
        | ':' :: r2 =>
          match parseJ fuel r2 with
          | none => none
          | some (v, r3) =>
            match skipWsJ r3 with
            | ',' :: r4 =>
              (parseMembersJ fuel r4).map (fun p => ((String.mk k, v) :: p.1, p.2))
            | '\x7d' :: r4 => some ([(String.mk k, v)], r4)
            | _ => none
        | _ => none
    | _ => none

def parseElemsJ : Nat → List Char → Option (List Json × List Char)
  | 0, _ => none
  | fuel + 1, l =>
    match parseJ fuel l with
    | none => none
    | some (v, r1) =>
      match skipWsJ r1 with
      | ',' :: r2 => (parseElemsJ fuel r2).map (fun p => (v :: p.1, p.2))
      | ']' :: r2 => some ([v], r2)
      | _ => none

end

/-- `json.loads`: decode the whole string, allowing trailing whitespace. -/
def jsonLoads (s : String) : Option Json :=
  match parseJ (s.length + 1) s.data with
  | some (j, rest) => if (skipWsJ rest).isEmpty then some j else none
  | none => none

/-- `config.DEFAULT_QUERY_LIMIT` (default 100). -/
def DEFAULT_QUERY_LIMIT : Nat := 100

/-- `FilterStructure` from core/models.py restricted to the fields
`build_query` reads (`raw_structure` is only used by the deprecated
`_build_where_clause` path). The `logic` field holds the LogicOperator's
string value. -/
structure FilterStructure where
  filters : List GraphQLFilter
  logic : String
deriving DecidableEq

/-- `_build_filter_clause` from builder.py: `\x7b\x7d` (here `none`) when
there are no filters, else `_build_subject_filter`. -/
def build_filter_clause (fs : FilterStructure) : Option GqlF :=
  if fs.filters.isEmpty then none else build_subject_filter fs.filters

mutual

/-- A `Val` as the JSON value `json.dumps` receives. -/
def valToJson : Val → Json
  | .str s => .str s
  | .int n => .num (n : ℚ)
  | .float q => .num q
  | .bool b => .bool b
  | .list vs => .arr (valsToJson vs)

def valsToJson : List Val → List Json
  | [] => []
  | v :: rest => valToJson v :: valsToJson rest

end

mutual

/-- A wire filter as the JSON dict the builder constructs. -/
def gqlfToJson : GqlF → Json
  | .comb op cs => .obj [(op, .arr (gqlfsToJson cs))]
  | .inF entries => .obj [("IN", .obj (entries.map (fun kv => (kv.1, valToJson kv.2))))]
  | .gteF f v => .obj [("GTE", .obj [(f, valToJson v)])]
  | .lteF f v => .obj [("LTE", .obj [(f, valToJson v)])]
  | .gtF f v => .obj [("GT", .obj [(f, valToJson v)])]
  | .ltF f v => .obj [("LT", .obj [(f, valToJson v)])]
  | .containsF f v => .obj [("CONTAINS", .obj [(f, valToJson v)])]
  | .nested p op cs => .obj [("nested", .obj [("path", .str p), (op, .arr (gqlfsToJson cs))])]

def gqlfsToJson : List GqlF → List Json
  | [] => []
  | c :: rest => gqlfToJson c :: gqlfsToJson rest

end

/-- `_build_query_string` from builder.py; the only thing it reads from the
filter clause is its truthiness. -/
def build_query_string (hasFilter : Bool) : String :=
  String.intercalate "\n"
    (["query ($filter: JSON) \x7b",
      "  subject(",
      "    accessibility: accessible,",
      "    offset: 0,",
      "    first: " ++ toString DEFAULT_QUERY_LIMIT] ++
     (if hasFilter then ["    filter: $filter"] else []) ++
     ["  ) \x7b",
      "    consortium",
      "    subject_submitter_id",
      "    sex",
      "    race",
      "    ethnicity",
      "    age_at_censor_status",
      "    tumor_assessments \x7b",
      "      tumor_site",
      "      tumor_state",
      "      tumor_classification",
      "      age_at_tumor_assessment",
      "    \x7d",
      "    histologies \x7b",
      "      histology",
      "      histology_grade",
      "    \x7d",
      "    disease_characteristics \x7b",
      "      diagnosis",
      "      primary_site",
      "    \x7d",
      "  \x7d",
      "\x7d"])

/-- `_build_variables` from builder.py. -/
def build_variables (fs : FilterStructure) : Json :=
  match build_filter_clause fs with
  | some g => .obj [("filter", gqlfToJson g)]
  | none => .obj []

/-- ASCII model of Python `str.upper()` on one character. -/
def pyUpperChar (c : Char) : Char :=
  if 'a' ≤ c ∧ c ≤ 'z' then Char.ofNat (c.toNat - 32) else c

def isAsciiAlpha (c : Char) : Bool := ('a' ≤ c ∧ c ≤ 'z') ∨ ('A' ≤ c ∧ c ≤ 'Z')

/-- Python `str.title()`: uppercase each letter that follows a non-letter,
lowercase the rest. -/
def titleGo : Bool → List Char → List Char
  | _, [] => []
  | prevAlpha, c :: rest =>
    (if isAsciiAlpha c then (if prevAlpha then pyLowerChar c else pyUpperChar c) else c)
      :: titleGo (isAsciiAlpha c) rest

def pyTitle (s : String) : String := String.mk (titleGo false s.data)

/-- `_get_field_description` from builder.py. -/
def get_field_description (field_path : String) : String :=
  let field_name := (splitKey field_path).getLastD ""
  pyTitle (String.mk (field_name.data.map (fun c => if c = '_' then ' ' else c)))

/-- `_get_operator_description` from builder.py. -/
def get_operator_description (op : String) : String :=
  if op = "eq" then "equals"
  else if op = "ne" then "does not equal"
  else if op = "in" then "is one of"
  else if op = "nin" then "is not one of"
  else if op = "contains" then "contains"
  else if op = "startswith" then "starts with"
  else if op = "endswith" then "ends with"
  else if op = "gt" then "is greater than"
  else if op = "gte" then "is greater than or equal to"
  else if op = "lt" then "is less than"
  else if op = "lte" then "is less than or equal to"
  else if op = "like" then "matches pattern"
  else if op = "ilike" then "matches pattern (case insensitive)"
  else if op = "is_null" then "is null"
  else "has operator " ++ op

/-- `_get_value_description` from builder.py. -/
def get_value_description (v : Val) : String :=
  match v with
  | .list vs =>
    if vs.length = 1 then "'" ++ pyStrOfVal (vs.headD (.str "")) ++ "'"
    else if vs.length ≤ 3 then "[" ++ String.intercalate ", " (vs.map pyStrOfVal) ++ "]"
    else "[" ++ pyStrOfVal (vs.headD (.str "")) ++ ", " ++ pyStrOfVal ((vs[1]?).getD (.str ""))
      ++ " and " ++ toString (vs.length - 2) ++ " others]"
  | _ => "'" ++ pyStrOfVal v ++ "'"

/-- `_generate_description` from builder.py. -/
def generate_description (fs : FilterStructure) : String :=
  if fs.filters.isEmpty then "Query for all cases (no filters applied)"
  else
    let descriptions := fs.filters.map (fun f =>
      get_field_description f.field ++ " " ++ get_operator_description f.operator ++ " " ++
        get_value_description f.value)
    let logic_word := if fs.logic = "AND" then "and" else "or"
    if descriptions.length = 1 then "Cases where " ++ descriptions.headD ""
    else "Cases where " ++ String.intercalate (" " ++ logic_word ++ " ") descriptions

/-- `GraphQLQuery` from core/models.py (`variables` is the JSON-encoded
string). -/
structure GraphQLQuery where
  query : String
  «variables» : String
  description : String
deriving DecidableEq

/-- `build_query` from builder.py. It never calls `validate_query`: the
emitted query is assembled from the clause, template, variables and
description alone. -/
def build_query (fs : FilterStructure) : GraphQLQuery :=
  { query := build_query_string (build_filter_clause fs).isSome,
    «variables» := jsonDumps2 (build_variables fs),
    description := generate_description fs }

/-- Python `str.count` for a nonempty needle: non-overlapping occurrences,
scanning left to right. -/
def countOccurFuel : Nat → List Char → List Char → Nat
  | 0, _, _ => 0
  | fuel + 1, nd, l =>
    match l with
    | [] => 0
    | c :: rest =>
      if startMatch nd (c :: rest) then 1 + countOccurFuel fuel nd (rest.drop (nd.length - 1))
      else countOccurFuel fuel nd rest

def countOccur (needle hay : String) : Nat :=
  countOccurFuel (hay.length + 1) needle.data hay.data

/-- The count-dependent warning text of `validate_query`. -/
def msgIlike (n : Nat) : String :=
  "Query contains " ++ toString n ++ " text search operations which may be slow"

/-- `validate_query` from builder.py: three advisory checks, each appending
one warning string; it never raises and nothing consults its result. -/
def validate_query (q : GraphQLQuery) : List String :=
  (if 10000 < q.query.length then ["Query is very long and may impact performance"] else []) ++
  (if strIn "_ilike" q.query then
    (if 3 < countOccur "_ilike" q.query then [msgIlike (countOccur "_ilike" q.query)] else [])
   else []) ++
  (if q.«variables» = "" then []
   else
    match jsonLoads q.«variables» with
    | some v => if 5000 < (jsonDumps v).length then ["Query variables are very large"] else []
    | none => ["Invalid JSON in query variables"])

theorem countOccurFuel_zero (nd : List Char) : ∀ (fuel : Nat) (l : List Char),
    subOccurs nd l = false → countOccurFuel fuel nd l = 0 := by
  intro fuel
  induction fuel with
  | zero => intro l _; rfl
  | succ f ih =>
    intro l h
    cases l with
    | nil => rfl
    | cons c rest =>
      simp only [subOccurs, Bool.or_eq_false_iff] at h
      simp [countOccurFuel, h.1, ih rest h.2]

theorem countOccur_zero_of_not_in (needle hay : String) (h : strIn needle hay = false) :
    countOccur needle hay = 0 :=
  countOccurFuel_zero needle.data (hay.length + 1) hay.data h

theorem msgIlike_data_get (n i : Nat) (hi : i < 15) :
    (msgIlike n).data[i]? = "Query contains ".data[i]? := by
  have hd : (msgIlike n).data =
      "Query contains ".data ++
        ((toString n).data ++ " text search operations which may be slow".data) := by
    simp [msgIlike, String.data_append]
  rw [hd]
  exact List.getElem?_append_left
    (by rw [show "Query contains ".data.length = 15 from rfl]; exact hi)

theorem msgIlike_ne_vlong (n : Nat) :
    msgIlike n ≠ "Query is very long and may impact performance" := by
  intro h
  have h6 := msgIlike_data_get n 6 (by omega)
  rw [h] at h6
  exact absurd h6 (by decide)

theorem msgIlike_ne_vars (n : Nat) :
    msgIlike n ≠ "Query variables are very large" := by
  intro h
  have h6 := msgIlike_data_get n 6 (by omega)
  rw [h] at h6
  exact absurd h6 (by decide)

theorem msgIlike_ne_badjson (n : Nat) :
    msgIlike n ≠ "Invalid JSON in query variables" := by
  intro h
  have h0 := msgIlike_data_get n 0 (by omega)
  rw [h] at h0
  exact absurd h0 (by decide)

/-- C8: `validate_query` is advisory only. `build_query` emits its query
unconditionally from the clause, the fixed template, the serialized
variables, and the description — it never invokes `validate_query` — while
`validate_query` returns exactly the warning list flagging (i) query text
over 10000 characters, (ii) more than 3 `_ilike` text-search operators, and
(iii) a variables payload whose compact re-serialization exceeds 5000
characters (or that is not valid JSON), each an if-and-only-if. -/
theorem C8_validate_query_advisory (fs : FilterStructure) (q : GraphQLQuery) :
    build_query fs = { query := build_query_string (build_filter_clause fs).isSome,
                       «variables» := jsonDumps2 (build_variables fs),
                       description := generate_description fs } ∧
    ("Query is very long and may impact performance" ∈ validate_query q ↔
      10000 < q.query.length) ∧
    (msgIlike (countOccur "_ilike" q.query) ∈ validate_query q ↔
      3 < countOccur "_ilike" q.query) ∧
    ("Query variables are very large" ∈ validate_query q ↔
      (q.«variables» ≠ "" ∧ ∃ v, jsonLoads q.«variables» = some v ∧
        5000 < (jsonDumps v).length)) ∧
    ("Invalid JSON in query variables" ∈ validate_query q ↔
      (q.«variables» ≠ "" ∧ jsonLoads q.«variables» = none)) := by
  refine ⟨rfl, ?_, ?_, ?_, ?_⟩
  · constructor
    · intro hm
      simp only [validate_query, List.mem_append] at hm
      rcases hm with (hm | hm) | hm
      · by_cases hq : 10000 < q.query.length
        · exact hq
        · simp [hq] at hm
      · exfalso
        cases h1 : strIn "_ilike" q.query
        · simp [h1] at hm
        · by_cases h2 : 3 < countOccur "_ilike" q.query
          · simp [h1, h2] at hm
            exact msgIlike_ne_vlong _ hm.symm
          · simp [h1, h2] at hm
      · exfalso
        by_cases hv : q.«variables» = ""
        · simp [hv] at hm
        · cases hj : jsonLoads q.«variables» with
          | none =>
            simp [hv, hj] at hm
          | some v =>
            by_cases h5 : 5000 < (jsonDumps v).length
            · simp [hv, hj, h5] at hm
            · simp [hv, hj, h5] at hm
    · intro hq
      simp only [validate_query, List.mem_append]
      left; left
      simp [hq]
  · constructor
    · intro hm
      simp only [validate_query, List.mem_append] at hm
      rcases hm with (hm | hm) | hm
      · by_cases hq : 10000 < q.query.length
        · simp [hq] at hm
          exact absurd hm (msgIlike_ne_vlong _)
        · simp [hq] at hm
      · cases h1 : strIn "_ilike" q.query
        · simp [h1] at hm
        · by_cases h2 : 3 < countOccur "_ilike" q.query
          · exact h2
          · simp [h1, h2] at hm
      · exfalso
        by_cases hv : q.«variables» = ""
        · simp [hv] at hm
        · cases hj : jsonLoads q.«variables» with
          | none =>
            simp [hv, hj] at hm
            exact absurd hm (msgIlike_ne_badjson _)
          | some v =>
            by_cases h5 : 5000 < (jsonDumps v).length
            · simp [hv, hj, h5] at hm
              exact absurd hm (msgIlike_ne_vars _)
            · simp [hv, hj, h5] at hm
    · intro h2
      have h1 : strIn "_ilike" q.query = true := by
        cases h1 : strIn "_ilike" q.query
        · exfalso
          have h0 := countOccur_zero_of_not_in "_ilike" q.query h1
          omega
        · rfl
      simp only [validate_query, List.mem_append]
      left; right
      simp [h1, h2]
  · constructor
    · intro hm
      simp only [validate_query, List.mem_append] at hm
      rcases hm with (hm | hm) | hm
      · by_cases hq : 10000 < q.query.length
        · simp [hq] at hm
        · simp [hq] at hm
      · cases h1 : strIn "_ilike" q.query
        · simp [h1] at hm
        · by_cases h2 : 3 < countOccur "_ilike" q.query
          · simp [h1, h2] at hm
            exact absurd (msgIlike_ne_vars _ hm.symm) (fun hf => hf)
          · simp [h1, h2] at hm
      · by_cases hv : q.«variables» = ""
        · simp [hv] at hm
        · cases hj : jsonLoads q.«variables» with
          | none =>
            simp [hv, hj] at hm
          | some v =>
            by_cases h5 : 5000 < (jsonDumps v).length
            · exact ⟨hv, v, rfl, h5⟩
            · simp [hv, hj, h5] at hm
    · rintro ⟨hv, v, hj, h5⟩
      simp only [validate_query, List.mem_append]
      right
      simp [hv, hj, h5]
  · constructor
    · intro hm
      simp only [validate_query, List.mem_append] at hm
      rcases hm with (hm | hm) | hm
      · by_cases hq : 10000 < q.query.length
        · simp [hq] at hm
        · simp [hq] at hm
      · cases h1 : strIn "_ilike" q.query
        · simp [h1] at hm
        · by_cases h2 : 3 < countOccur "_ilike" q.query
          · simp [h1, h2] at hm
            exact absurd (msgIlike_ne_badjson _ hm.symm) (fun hf => hf)
          · simp [h1, h2] at hm
      · by_cases hv : q.«variables» = ""
        · simp [hv] at hm
        · cases hj : jsonLoads q.«variables» with
          | none => exact ⟨hv, rfl⟩
          | some v =>
            by_cases h5 : 5000 < (jsonDumps v).length
            · simp [hv, hj, h5] at hm
            · simp [hv, hj, h5] at hm
    · rintro ⟨hv, hj⟩
      simp only [validate_query, List.mem_append]
      right
      simp [hv, hj]

def c8Structure : FilterStructure := { filters := [], logic := "AND" }

def c8Query : GraphQLQuery :=
  { query := "_ilike _ilike _ilike _ilike", «variables» := "", description := "" }

theorem C8_validate_query_advisory_witness :
    3 < countOccur "_ilike" c8Query.query ∧
    msgIlike (countOccur "_ilike" c8Query.query) ∈ validate_query c8Query ∧
    build_query c8Structure =
      { query := build_query_string (build_filter_clause c8Structure).isSome,
        «variables» := jsonDumps2 (build_variables c8Structure),
        description := generate_description c8Structure } :=
  ⟨by decide,
   (C8_validate_query_advisory c8Structure c8Query).2.2.1.mpr (by decide),
   (C8_validate_query_advisory c8Structure c8Query).1⟩
